import Mathlib

/-!
Verification of the isomorphory chunked-diff pipeline.

The TypeScript sources are shallowly embedded: JavaScript strings are lists of
characters, JavaScript objects (Records) are ordered lists of field/value
entries, `Set` objects are duplicate-free lists in insertion order, Node
transform streams are explicit state machines over chunk lists, and the
bounded task runner is a small-step scheduler over an explicit task queue.
-/

namespace Isomorphory

/-- A JavaScript string, modelled as its list of characters. -/
abbrev Str := List Char

/-- A JavaScript object used as a data Record: its ordered list of
(field name, value) entries.  A well-formed object has duplicate-free
field names. -/
abbrev Recd := List (Str × Str)

/-- Model of `new Set(l)` viewed as a list: the distinct elements of `l` in
order of first occurrence (JavaScript Set iteration order is insertion
order). -/
def toSetList {α : Type} [DecidableEq α] (l : List α) : List α :=
  l.foldl (fun acc x => if x ∈ acc then acc else acc ++ [x]) []

theorem mem_foldl_insertDistinct {α : Type} [DecidableEq α] (l : List α) :
    ∀ (acc : List α) (x : α),
      (x ∈ l.foldl (fun acc y => if y ∈ acc then acc else acc ++ [y]) acc) ↔
        (x ∈ acc ∨ x ∈ l) := by
  induction l with
  | nil => simp
  | cons y ys ih =>
    intro acc x
    simp only [List.foldl_cons]
    by_cases hy : y ∈ acc
    · rw [if_pos hy, ih]
      constructor
      · rintro (h | h)
        · exact Or.inl h
        · exact Or.inr (List.mem_cons_of_mem _ h)
      · rintro (h | h)
        · exact Or.inl h
        · rcases List.mem_cons.mp h with rfl | h
          · exact Or.inl hy
          · exact Or.inr h
    · rw [if_neg hy, ih]
      simp only [List.mem_append, List.mem_singleton, List.mem_cons]
      tauto

theorem mem_toSetList {α : Type} [DecidableEq α] (l : List α) (x : α) :
    x ∈ toSetList l ↔ x ∈ l := by
  unfold toSetList
  rw [mem_foldl_insertDistinct]
  simp

theorem nodup_foldl_insertDistinct {α : Type} [DecidableEq α] (l : List α) :
    ∀ (acc : List α), acc.Nodup →
      (l.foldl (fun acc y => if y ∈ acc then acc else acc ++ [y]) acc).Nodup := by
  induction l with
  | nil => intro acc h; simpa using h
  | cons y ys ih =>
    intro acc hacc
    simp only [List.foldl_cons]
    by_cases hy : y ∈ acc
    · rw [if_pos hy]; exact ih acc hacc
    · rw [if_neg hy]
      refine ih _ ?_
      rw [List.nodup_append]
      exact ⟨hacc, List.nodup_singleton y, by simpa using hy⟩

theorem nodup_toSetList {α : Type} [DecidableEq α] (l : List α) :
    (toSetList l).Nodup :=
  nodup_foldl_insertDistinct l [] List.nodup_nil

theorem foldl_insertDistinct_of_nodup {α : Type} [DecidableEq α] (l : List α) :
    ∀ (acc : List α), (acc ++ l).Nodup →
      l.foldl (fun acc y => if y ∈ acc then acc else acc ++ [y]) acc = acc ++ l := by
  induction l with
  | nil => intro acc _; simp
  | cons y ys ih =>
    intro acc hacc
    have hy : y ∉ acc := by
      intro hmem
      rcases List.nodup_append.mp hacc with ⟨_, _, hdisj⟩
      exact hdisj hmem (List.mem_cons_self _ _)
    simp only [List.foldl_cons, if_neg hy]
    have : (acc ++ [y]) ++ ys = acc ++ y :: ys := by simp
    rw [ih (acc ++ [y]) (by rw [this]; exact hacc), this]

theorem toSetList_eq_self {α : Type} [DecidableEq α] (l : List α) (h : l.Nodup) :
    toSetList l = l := by
  unfold toSetList
  have := foldl_insertDistinct_of_nodup l [] (by simpa using h)
  simpa using this

/-- One iteration of the `setA.forEach` loop inside `getArrayDiffs`: if the
current element is also in `setB`, delete it from both sets and count a
match; otherwise leave the state unchanged. -/
def diffStep {α : Type} [DecidableEq α] (st : List α × List α × Nat) (el : α) :
    List α × List α × Nat :=
  if el ∈ st.2.1 then (st.1.erase el, st.2.1.erase el, st.2.2 + 1) else st

/-- `getArrayDiffs` from `src/lib/defaults.ts`: reduce both input arrays to
sets, then walk the first set deleting elements common to both sets while
counting matches.  Returns (elements only in `a`, elements only in `b`,
number of common elements). -/
def getArrayDiffs {α : Type} [DecidableEq α] (ab : List α × List α) :
    List α × List α × Nat :=
  let sa := toSetList ab.1
  let sb := toSetList ab.2
  sa.foldl diffStep (sa, sb, 0)

theorem diffFold_spec {α : Type} [DecidableEq α] :
    ∀ (l : List α), l.Nodup → ∀ (sa sb : List α) (m : Nat),
      l.foldl diffStep (sa, sb, m) =
        (List.foldl List.erase sa (l.filter (fun x => decide (x ∈ sb))),
         List.foldl List.erase sb (l.filter (fun x => decide (x ∈ sb))),
         m + (l.filter (fun x => decide (x ∈ sb))).length) := by
  intro l
  induction l with
  | nil => intro _ sa sb m; simp
  | cons x xs ih =>
    intro hnd sa sb m
    have hx : x ∉ xs := (List.nodup_cons.mp hnd).1
    have hxs : xs.Nodup := (List.nodup_cons.mp hnd).2
    by_cases hmem : x ∈ sb
    · have hstep : diffStep (sa, sb, m) x = (sa.erase x, sb.erase x, m + 1) := by
        simp [diffStep, hmem]
      have hfilter : xs.filter (fun y => decide (y ∈ sb.erase x)) =
          xs.filter (fun y => decide (y ∈ sb)) := by
        apply List.filter_congr
        intro y hy
        have hne : y ≠ x := fun h => hx (h ▸ hy)
        simp [List.mem_erase_of_ne hne]
      simp only [List.foldl_cons, hstep]
      rw [ih hxs (sa.erase x) (sb.erase x) (m + 1), hfilter]
      have hfc : (x :: xs).filter (fun y => decide (y ∈ sb)) =
          x :: xs.filter (fun y => decide (y ∈ sb)) := by
        simp [List.filter_cons, hmem]
      rw [hfc]
      simp only [List.foldl_cons, List.length_cons, Prod.mk.injEq]
      refine ⟨trivial, trivial, by omega⟩
    · have hstep : diffStep (sa, sb, m) x = (sa, sb, m) := by
        simp [diffStep, hmem]
      simp only [List.foldl_cons, hstep]
      rw [ih hxs sa sb m]
      have hfc : (x :: xs).filter (fun y => decide (y ∈ sb)) =
          xs.filter (fun y => decide (y ∈ sb)) := by
        simp [List.filter_cons, hmem]
      rw [hfc]

theorem foldl_erase_cons_of_ne {α : Type} [DecidableEq α] :
    ∀ (l : List α) (x : α) (xs : List α), (∀ y ∈ l, y ≠ x) →
      List.foldl List.erase (x :: xs) l = x :: List.foldl List.erase xs l := by
  intro l
  induction l with
  | nil => intro x xs _; rfl
  | cons y ys ih =>
    intro x xs h
    have hyx : y ≠ x := h y (List.mem_cons_self _ _)
    simp only [List.foldl_cons]
    rw [List.erase_cons_tail (by simpa using (Ne.symm hyx))]
    exact ih x (xs.erase y) (fun z hz => h z (List.mem_cons_of_mem _ hz))

theorem foldl_erase_self_filter {α : Type} [DecidableEq α] (p : α → Bool) :
    ∀ (sa : List α), sa.Nodup →
      List.foldl List.erase sa (sa.filter p) = sa.filter (fun x => !(p x)) := by
  intro sa
  induction sa with
  | nil => intro _; simp
  | cons x xs ih =>
    intro hnd
    have hx : x ∉ xs := (List.nodup_cons.mp hnd).1
    have hxs : xs.Nodup := (List.nodup_cons.mp hnd).2
    by_cases hp : p x
    · have hfc : (x :: xs).filter p = x :: xs.filter p := by simp [List.filter_cons, hp]
      rw [hfc]
      simp only [List.foldl_cons, List.erase_cons_head]
      rw [ih hxs]
      simp [List.filter_cons, hp]
    · have hfc : (x :: xs).filter p = xs.filter p := by
        simp [List.filter_cons, hp]
      rw [hfc]
      rw [foldl_erase_cons_of_ne (xs.filter p) x xs
        (fun y hy => fun h => hx (by rw [← h]; exact List.mem_of_mem_filter hy))]
      rw [ih hxs]
      simp [List.filter_cons, hp]

theorem foldl_erase_subset_filter {α : Type} [DecidableEq α] :
    ∀ (l : List α) (B : List α), B.Nodup → l.Nodup → (∀ x ∈ l, x ∈ B) →
      List.foldl List.erase B l = B.filter (fun x => decide (x ∉ l)) := by
  intro l
  induction l with
  | nil => intro B _ _ _; simp
  | cons y ys ih =>
    intro B hB hnd hsub
    have hy : y ∉ ys := (List.nodup_cons.mp hnd).1
    have hys : ys.Nodup := (List.nodup_cons.mp hnd).2
    simp only [List.foldl_cons]
    rw [ih (B.erase y) (hB.erase y) hys
      (fun x hx => (List.mem_erase_of_ne
        (fun h => hy (by rw [← h]; exact hx))).mpr (hsub x (List.mem_cons_of_mem _ hx)))]
    rw [hB.erase_eq_filter y, List.filter_filter]
    apply List.filter_congr
    intro x _
    by_cases h1 : x = y <;> by_cases h2 : x ∈ ys <;>
      simp [h1, h2, List.mem_cons]

theorem getArrayDiffs_eq {α : Type} [DecidableEq α] (a b : List α) :
    getArrayDiffs (a, b) =
      ((toSetList a).filter (fun x => decide (x ∉ b)),
       (toSetList b).filter (fun x => decide (x ∉ a)),
       ((toSetList a).filter (fun x => decide (x ∈ b))).length) := by
  unfold getArrayDiffs
  have hA : (toSetList a).Nodup := nodup_toSetList a
  have hB : (toSetList b).Nodup := nodup_toSetList b
  rw [diffFold_spec (toSetList a) hA (toSetList a) (toSetList b) 0]
  have hmemb : ∀ x, (x ∈ toSetList b) ↔ (x ∈ b) := mem_toSetList b
  have hmema : ∀ x, (x ∈ toSetList a) ↔ (x ∈ a) := mem_toSetList a
  have hmfilter : (toSetList a).filter (fun x => decide (x ∈ toSetList b)) =
      (toSetList a).filter (fun x => decide (x ∈ b)) := by
    apply List.filter_congr
    intro x _
    by_cases h : x ∈ b <;> simp [h, hmemb]
  refine Prod.ext ?_ (Prod.ext ?_ ?_)
  · show List.foldl List.erase (toSetList a) _ = _
    rw [foldl_erase_self_filter (fun x => decide (x ∈ toSetList b)) (toSetList a) hA]
    apply List.filter_congr
    intro x _
    by_cases h : x ∈ b <;> simp [h, hmemb]
  · show List.foldl List.erase (toSetList b) _ = _
    rw [foldl_erase_subset_filter _ (toSetList b) hB (hA.filter _)
      (fun x hx => by
        have := List.of_mem_filter hx
        simpa using this)]
    apply List.filter_congr
    intro x hx
    have hxb : x ∈ b := (hmemb x).mp hx
    by_cases h : x ∈ a
    · have : x ∈ (toSetList a).filter (fun y => decide (y ∈ toSetList b)) := by
        refine List.mem_filter.mpr ⟨(hmema x).mpr h, ?_⟩
        simpa using hx
      simp [this, h]
    · have : x ∉ (toSetList a).filter (fun y => decide (y ∈ toSetList b)) := by
        intro hmem
        exact h ((hmema x).mp (List.mem_of_mem_filter hmem))
      simp [this, h]
  · have hlen : ((toSetList a).filter (fun x => decide (x ∈ toSetList b))).length =
        ((toSetList a).filter (fun x => decide (x ∈ b))).length := by rw [hmfilter]
    simpa using hlen

theorem mem_getArrayDiffs_missing {α : Type} [DecidableEq α] (a b : List α) (x : α) :
    x ∈ (getArrayDiffs (a, b)).1 ↔ (x ∈ a ∧ x ∉ b) := by
  rw [getArrayDiffs_eq]
  simp [List.mem_filter, mem_toSetList]

theorem mem_getArrayDiffs_extraneous {α : Type} [DecidableEq α] (a b : List α) (x : α) :
    x ∈ (getArrayDiffs (a, b)).2.1 ↔ (x ∈ b ∧ x ∉ a) := by
  rw [getArrayDiffs_eq]
  simp [List.mem_filter, mem_toSetList]

theorem nodup_getArrayDiffs_missing {α : Type} [DecidableEq α] (a b : List α) :
    (getArrayDiffs (a, b)).1.Nodup := by
  rw [getArrayDiffs_eq]
  exact (nodup_toSetList a).filter _

theorem nodup_getArrayDiffs_extraneous {α : Type} [DecidableEq α] (a b : List α) :
    (getArrayDiffs (a, b)).2.1.Nodup := by
  rw [getArrayDiffs_eq]
  exact (nodup_toSetList b).filter _

theorem length_filter_toSetList_eq_card {α : Type} [DecidableEq α]
    (a : List α) (p : α → Bool) :
    ((toSetList a).filter p).length = (a.toFinset.filter (fun x => p x)).card := by
  have hnd : ((toSetList a).filter p).Nodup := (nodup_toSetList a).filter _
  rw [← List.toFinset_card_of_nodup hnd]
  congr 1
  apply Finset.ext
  intro x
  simp [List.mem_toFinset, List.mem_filter, mem_toSetList]

/-- C4: `getArrayDiffs([a, b])` returns `(missing, extraneous, matches)` where
`missing` enumerates the distinct elements of `a` absent from `b`,
`extraneous` enumerates the distinct elements of `b` absent from `a`,
`matches` is the number of distinct common elements, duplicates within one
side count once, and `matches + |missing| = |distinct a|`,
`matches + |extraneous| = |distinct b|`. -/
theorem getArrayDiffs_correct (a b : List Str) :
    (∀ x, x ∈ (getArrayDiffs (a, b)).1 ↔ (x ∈ a ∧ x ∉ b)) ∧
    (∀ x, x ∈ (getArrayDiffs (a, b)).2.1 ↔ (x ∈ b ∧ x ∉ a)) ∧
    (getArrayDiffs (a, b)).1.Nodup ∧
    (getArrayDiffs (a, b)).2.1.Nodup ∧
    (getArrayDiffs (a, b)).2.2 = (a.toFinset ∩ b.toFinset).card ∧
    (getArrayDiffs (a, b)).2.2 + (getArrayDiffs (a, b)).1.length = a.toFinset.card ∧
    (getArrayDiffs (a, b)).2.2 + (getArrayDiffs (a, b)).2.1.length = b.toFinset.card := by
  have hmatches : (getArrayDiffs (a, b)).2.2 = (a.toFinset ∩ b.toFinset).card := by
    rw [getArrayDiffs_eq]
    show ((toSetList a).filter _).length = _
    rw [length_filter_toSetList_eq_card]
    congr 1
    apply Finset.ext
    intro x
    simp [List.mem_toFinset]
  have hmissing : (getArrayDiffs (a, b)).1.length = (a.toFinset \ b.toFinset).card := by
    rw [getArrayDiffs_eq]
    show ((toSetList a).filter _).length = _
    rw [length_filter_toSetList_eq_card]
    congr 1
    apply Finset.ext
    intro x
    simp [List.mem_toFinset]
  have hextra : (getArrayDiffs (a, b)).2.1.length = (b.toFinset \ a.toFinset).card := by
    rw [getArrayDiffs_eq]
    show ((toSetList b).filter _).length = _
    rw [length_filter_toSetList_eq_card]
    congr 1
    apply Finset.ext
    intro x
    simp [List.mem_toFinset]
  refine ⟨mem_getArrayDiffs_missing a b, mem_getArrayDiffs_extraneous a b,
    nodup_getArrayDiffs_missing a b, nodup_getArrayDiffs_extraneous a b,
    hmatches, ?_, ?_⟩
  · rw [hmatches, hmissing]
    have := Finset.card_inter_add_card_sdiff a.toFinset b.toFinset
    omega
  · rw [hmatches, hextra, Finset.inter_comm]
    have := Finset.card_inter_add_card_sdiff b.toFinset a.toFinset
    omega

/-- First reserved private-use separator, ``: joins a field name to its
value inside a canonical key. -/
def sepKV : Char := Char.ofNat 0xE880

/-- Second reserved private-use separator, ``: joins the name/value
pairs of a canonical key. -/
def sepEntry : Char := Char.ofNat 0xE881

/-- JavaScript `<` comparison of strings: lexicographic on the character
sequences.  This is the comparison used by the sort comparator inside
`stringifyObject`. -/
def ltStr : Str → Str → Bool
  | [], [] => false
  | [], _ :: _ => true
  | _ :: _, [] => false
  | a :: as, b :: bs => if a < b then true else if b < a then false else ltStr as bs

theorem ltStr_asymm : ∀ (a b : Str), ltStr a b = true → ltStr b a = false := by
  intro a
  induction a with
  | nil => intro b; cases b <;> simp [ltStr]
  | cons x xs ih =>
    intro b
    cases b with
    | nil => simp [ltStr]
    | cons y ys =>
      simp only [ltStr]
      rcases lt_trichotomy x y with h | h | h
      · rw [if_pos h, if_neg (lt_asymm h), if_pos h]
        simp
      · subst h
        rw [if_neg (lt_irrefl x), if_neg (lt_irrefl x), if_neg (lt_irrefl x),
          if_neg (lt_irrefl x)]
        exact ih ys
      · rw [if_neg (lt_asymm h), if_pos h]
        simp

theorem ltStr_connex : ∀ (a b : Str), ltStr a b = false → ltStr b a = false → a = b := by
  intro a
  induction a with
  | nil =>
    intro b
    cases b with
    | nil => intro _ _; rfl
    | cons y ys => intro h _; simp [ltStr] at h
  | cons x xs ih =>
    intro b
    cases b with
    | nil => intro _ h; simp [ltStr] at h
    | cons y ys =>
      simp only [ltStr]
      rcases lt_trichotomy x y with h | h | h
      · rw [if_pos h]; intro habs; simp at habs
      · subst h
        rw [if_neg (lt_irrefl x), if_neg (lt_irrefl x), if_neg (lt_irrefl x),
          if_neg (lt_irrefl x)]
        intro h1 h2
        rw [ih ys h1 h2]
      · intro _ habs
        rw [if_pos h] at habs
        simp at habs

theorem ltStr_trans : ∀ (a b c : Str),
    ltStr a b = true → ltStr b c = true → ltStr a c = true := by
  intro a
  induction a with
  | nil =>
    intro b c h1 h2
    cases b with
    | nil => simp [ltStr] at h1
    | cons y ys =>
      cases c with
      | nil => simp [ltStr] at h2
      | cons z zs => simp [ltStr]
  | cons x xs ih =>
    intro b c h1 h2
    cases b with
    | nil => simp [ltStr] at h1
    | cons y ys =>
      cases c with
      | nil => simp [ltStr] at h2
      | cons z zs =>
        simp only [ltStr] at h1 h2 ⊢
        rcases lt_trichotomy x y with hxy | hxy | hxy
        · rcases lt_trichotomy y z with hyz | hyz | hyz
          · rw [if_pos (lt_trans hxy hyz)]
          · subst hyz; rw [if_pos hxy]
          · rw [if_neg (lt_asymm hyz), if_pos hyz] at h2; simp at h2
        · subst hxy
          rcases lt_trichotomy x z with hxz | hxz | hxz
          · rw [if_pos hxz]
          · subst hxz
            rw [if_neg (lt_irrefl x), if_neg (lt_irrefl x)] at h1 h2 ⊢
            exact ih ys zs h1 h2
          · rw [if_neg (lt_asymm hxz), if_pos hxz] at h2; simp at h2
        · rw [if_neg (lt_asymm hxy), if_pos hxy] at h1; simp at h1

theorem lt_trichotomy_ltStr (a b : Str) :
    ltStr a b = true ∨ a = b ∨ ltStr b a = true := by
  by_cases h1 : ltStr a b = true
  · exact Or.inl h1
  · by_cases h2 : ltStr b a = true
    · exact Or.inr (Or.inr h2)
    · exact Or.inr (Or.inl (ltStr_connex a b (by simpa using h1) (by simpa using h2)))

/-- The ordering relation induced by the comparator passed to
`Object.entries(obj).sort(...)` in `stringifyObject`: entry `p` may come
before entry `q` when the comparator does not require the opposite order,
i.e. when `q`'s field name is not `<` than `p`'s. -/
def entryLe (p q : Str × Str) : Prop := ltStr q.1 p.1 = false

instance : DecidableRel entryLe := fun p q => by
  unfold entryLe; infer_instance

instance : IsTotal (Str × Str) entryLe := by
  constructor
  intro p q
  by_cases h : ltStr q.1 p.1 = true
  · exact Or.inr (ltStr_asymm _ _ h)
  · exact Or.inl (by simpa [entryLe] using h)

instance : IsTrans (Str × Str) entryLe := by
  constructor
  intro p q c hpq hqc
  unfold entryLe at hpq hqc ⊢
  by_cases h : ltStr c.1 p.1 = true
  · rcases lt_trichotomy_ltStr p.1 q.1 with h' | h' | h'
    · exact absurd (ltStr_trans _ _ _ h h') (by simp [hqc])
    · rw [← h'] at hqc; simp [h] at hqc
    · simp [h'] at hpq
  · simpa using h

/-- `Object.entries(obj).sort(comparator)`: a stable sort of the entry list
by field name. -/
def sortEntries (r : Recd) : Recd := List.insertionSort entryLe r

/-- `stringifyObject` from `src/lib/defaults.ts`: sort the entries by field
name, join each field name to its value with `sepKV`, and join the resulting
pairs with `sepEntry`.  The empty object maps to the empty string. -/
def stringifyObject (r : Recd) : Str :=
  List.intercalate [sepEntry] ((sortEntries r).map (fun p => p.1 ++ sepKV :: p.2))

/-- Model of `String.prototype.split` with a single-character separator:
returns the (possibly empty) fragments of `s` between occurrences of `sep`;
the empty string splits to `[[]]`. -/
def splitOnChar (sep : Char) : Str → List Str
  | [] => [[]]
  | c :: rest =>
    let r := splitOnChar sep rest
    if c = sep then [] :: r else (c :: r.headD []) :: r.tail

/-- One split fragment `[name, value]` to an object entry: `Object.fromEntries`
reads `entry[0]` and `entry[1]`; an absent component (`undefined`) is
modelled as the empty string. -/
def entryToPair (e : List Str) : Str × Str := (e.headD [], e.tail.headD [])

/-- One property insertion of `Object.fromEntries`: an entry whose field name
is already present overwrites that field's value in place; otherwise the
entry is appended. -/
def upsert (acc : Recd) (kv : Str × Str) : Recd :=
  if kv.1 ∈ acc.map Prod.fst then
    acc.map (fun p => if p.1 = kv.1 then (p.1, kv.2) else p)
  else acc ++ [kv]

/-- Model of `Object.fromEntries`. -/
def fromEntries (es : List (Str × Str)) : Recd := es.foldl upsert []

/-- `unstringifyObject` from `src/lib/defaults.ts`: the empty string decodes
to the empty object; otherwise split on `sepEntry`, split each fragment on
`sepKV` into `[name, value]`, and rebuild the object. -/
def unstringifyObject (s : Str) : Recd :=
  if s = [] then []
  else fromEntries ((splitOnChar sepEntry s).map
    (fun frag => entryToPair (splitOnChar sepKV frag)))

/-- Well-formed Record: duplicate-free field names and no reserved separator
character inside any field name or value.  This is exactly the documented
input constraint of `stringifyObject`. -/
def Wf (r : Recd) : Prop :=
  (r.map Prod.fst).Nodup ∧
  ∀ p ∈ r, sepKV ∉ p.1 ∧ sepEntry ∉ p.1 ∧ sepKV ∉ p.2 ∧ sepEntry ∉ p.2

instance : DecidablePred Wf := fun r => by
  unfold Wf; infer_instance

theorem splitOnChar_no_sep (sep : Char) :
    ∀ (s : Str), sep ∉ s → splitOnChar sep s = [s] := by
  intro s
  induction s with
  | nil => intro _; rfl
  | cons c rest ih =>
    intro h
    have hc : c ≠ sep := fun hh => h (by rw [hh]; exact List.mem_cons_self _ _)
    have hrest : sep ∉ rest := fun hh => h (List.mem_cons_of_mem _ hh)
    simp only [splitOnChar, if_neg hc, ih hrest]
    rfl

theorem splitOnChar_append_sep (sep : Char) :
    ∀ (k rest : Str), sep ∉ k →
      splitOnChar sep (k ++ sep :: rest) = k :: splitOnChar sep rest := by
  intro k
  induction k with
  | nil => intro rest _; simp [splitOnChar]
  | cons c kk ih =>
    intro rest h
    have hc : c ≠ sep := fun hh => h (by rw [hh]; exact List.mem_cons_self _ _)
    have hkk : sep ∉ kk := fun hh => h (List.mem_cons_of_mem _ hh)
    have hkr : splitOnChar sep (kk ++ sep :: rest) = kk :: splitOnChar sep rest :=
      ih rest hkk
    simp only [List.cons_append, splitOnChar, List.append_eq, if_neg hc, hkr]
    rfl

theorem intercalate_cons_cons (sep : Char) (p q : Str) (rest : List Str) :
    List.intercalate [sep] (p :: q :: rest) =
      p ++ sep :: List.intercalate [sep] (q :: rest) := by
  simp [List.intercalate, List.intersperse]

theorem splitOnChar_intercalate (sep : Char) :
    ∀ (ps : List Str), (∀ p ∈ ps, sep ∉ p) → ps ≠ [] →
      splitOnChar sep (List.intercalate [sep] ps) = ps := by
  intro ps
  induction ps with
  | nil => intro _ h; exact absurd rfl h
  | cons p rest ih =>
    intro hall _
    cases rest with
    | nil =>
      have : List.intercalate [sep] [p] = p := by simp [List.intercalate]
      rw [this]
      exact splitOnChar_no_sep sep p (hall p (List.mem_cons_self _ _))
    | cons q rest2 =>
      rw [intercalate_cons_cons]
      rw [splitOnChar_append_sep sep p _ (hall p (List.mem_cons_self _ _))]
      rw [ih (fun x hx => hall x (List.mem_cons_of_mem _ hx)) (by simp)]

theorem fromEntries_eq_self_aux :
    ∀ (es : List (Str × Str)) (acc : Recd),
      ((acc ++ es).map Prod.fst).Nodup → es.foldl upsert acc = acc ++ es := by
  intro es
  induction es with
  | nil => intro acc _; simp
  | cons e rest ih =>
    intro acc hnd
    have hkey : e.1 ∉ acc.map Prod.fst := by
      intro hmem
      rw [List.map_append, List.nodup_append] at hnd
      exact hnd.2.2 hmem (by simp)
    simp only [List.foldl_cons, upsert, if_neg hkey]
    have hassoc : (acc ++ [e]) ++ rest = acc ++ e :: rest := by simp
    rw [ih (acc ++ [e]) (by rw [hassoc]; exact hnd), hassoc]

theorem fromEntries_eq_self (es : List (Str × Str))
    (h : (es.map Prod.fst).Nodup) : fromEntries es = es := by
  unfold fromEntries
  simpa using fromEntries_eq_self_aux es [] (by simpa using h)

theorem sepKV_ne_sepEntry : sepKV ≠ sepEntry := by decide

/-- Under the documented input constraint, decoding an encoded record yields
exactly the record's entries sorted by field name. -/
theorem unstringify_stringify_eq_sort (r : Recd) (h : Wf r) :
    unstringifyObject (stringifyObject r) = sortEntries r := by
  have hperm : (sortEntries r).Perm r := List.perm_insertionSort entryLe r
  have hsortedWf : ∀ p ∈ sortEntries r,
      sepKV ∉ p.1 ∧ sepEntry ∉ p.1 ∧ sepKV ∉ p.2 ∧ sepEntry ∉ p.2 :=
    fun p hp => h.2 p (hperm.mem_iff.mp hp)
  have hkeys : ((sortEntries r).map Prod.fst).Nodup :=
    (hperm.map Prod.fst).nodup_iff.mpr h.1
  cases hre : sortEntries r with
  | nil =>
    have : r = [] := by
      have := hperm.length_eq
      rw [hre] at this
      exact List.eq_nil_of_length_eq_zero this.symm
    subst this
    simp [unstringifyObject, stringifyObject, sortEntries, List.intercalate]
  | cons p0 ps =>
    have hparts : ∀ part ∈ (sortEntries r).map (fun p => p.1 ++ sepKV :: p.2),
        sepEntry ∉ part := by
      intro part hpart
      rcases List.mem_map.mp hpart with ⟨p, hp, rfl⟩
      rcases hsortedWf p hp with ⟨_, h2, _, h4⟩
      intro hmem
      rcases List.mem_append.mp hmem with hh | hh
      · exact h2 hh
      · rcases List.mem_cons.mp hh with hh | hh
        · exact sepKV_ne_sepEntry hh.symm
        · exact h4 hh
    have hsplit : splitOnChar sepEntry (stringifyObject r) =
        (sortEntries r).map (fun p => p.1 ++ sepKV :: p.2) := by
      unfold stringifyObject
      exact splitOnChar_intercalate sepEntry _ hparts (by rw [hre]; simp)
    have hne : stringifyObject r ≠ [] := by
      intro habs
      rw [habs] at hsplit
      have : ([] : Str) ∈ (sortEntries r).map (fun p => p.1 ++ sepKV :: p.2) := by
        rw [← hsplit]; simp [splitOnChar]
      rcases List.mem_map.mp this with ⟨p, _, hp⟩
      simp at hp
    unfold unstringifyObject
    rw [if_neg hne, hsplit]
    have hfrag : ∀ p ∈ sortEntries r,
        entryToPair (splitOnChar sepKV (p.1 ++ sepKV :: p.2)) = p := by
      intro p hp
      rcases hsortedWf p hp with ⟨h1, _, h3, _⟩
      rw [splitOnChar_append_sep sepKV p.1 p.2 h1, splitOnChar_no_sep sepKV p.2 h3]
      rfl
    rw [List.map_map]
    have hmaps : (sortEntries r).map
        ((fun frag => entryToPair (splitOnChar sepKV frag)) ∘ (fun p => p.1 ++ sepKV :: p.2)) =
        sortEntries r := by
      have hid : (sortEntries r).map
          ((fun frag => entryToPair (splitOnChar sepKV frag)) ∘ (fun p => p.1 ++ sepKV :: p.2)) =
          (sortEntries r).map id := by
        apply List.map_congr_left
        intro p hp
        simp only [Function.comp_apply, id_eq]
        exact hfrag p hp
      rw [hid, List.map_id]
    rw [hmaps, fromEntries_eq_self _ hkeys]
    exact hre

theorem sortEntries_idem (r : Recd) : sortEntries (sortEntries r) = sortEntries r :=
  (List.sorted_insertionSort entryLe r).insertionSort_eq

/-- Canonical keys re-encode to themselves: encoding, decoding and encoding
again is the same as encoding once. -/
theorem stringify_unstringify_stringify (r : Recd) (h : Wf r) :
    stringifyObject (unstringifyObject (stringifyObject r)) = stringifyObject r := by
  rw [unstringify_stringify_eq_sort r h]
  unfold stringifyObject
  rw [sortEntries_idem]

/-- C3: for every well-formed Record (duplicate-free field names, no reserved
separator ``/`` in any field name or value),
`unstringifyObject (stringifyObject r)` is the same object as `r` (the same
entries, as a permutation — JS objects are compared as maps); moreover the
empty Record encodes to the empty string and the empty string decodes to the
empty Record. -/
theorem unstringifyObject_stringifyObject (r : Recd) (h : Wf r) :
    (unstringifyObject (stringifyObject r)).Perm r ∧
    stringifyObject [] = [] ∧ unstringifyObject [] = [] := by
  refine ⟨?_, ?_, ?_⟩
  · rw [unstringify_stringify_eq_sort r h]
    exact List.perm_insertionSort entryLe r
  · simp [stringifyObject, sortEntries, List.intercalate]
  · simp [unstringifyObject]

theorem unstringifyObject_stringifyObject_witness :
    Wf [([Char.ofNat 98], [Char.ofNat 50]), ([Char.ofNat 97], [Char.ofNat 49])] ∧
    ((unstringifyObject (stringifyObject
        [([Char.ofNat 98], [Char.ofNat 50]), ([Char.ofNat 97], [Char.ofNat 49])])).Perm
      [([Char.ofNat 98], [Char.ofNat 50]), ([Char.ofNat 97], [Char.ofNat 49])] ∧
    stringifyObject [] = [] ∧ unstringifyObject [] = []) :=
  ⟨by decide, unstringifyObject_stringifyObject _ (by decide)⟩

/-- The subset of Node object-mode Transform stream behavior the sources
use: a per-chunk `transform` implementation that may push output items and
update internal state, and a `final` implementation run once at end-of-input.
In Node, `this.push(x)` emits `x`, and passing a chunk as the second argument
of the transform callback emits that chunk as well. -/
structure TransformModel (α β σ : Type) where
  init : σ
  step : σ → α → σ × List β
  flush : σ → List β

/-- Run a transform model from a given state over the remaining input
chunks, collecting every emitted item in order; the `flush` output follows
the last chunk's output. -/
def runTAux {α β σ : Type} (t : TransformModel α β σ) : σ → List α → List β
  | s, [] => t.flush s
  | s, c :: cs => (t.step s c).2 ++ runTAux t (t.step s c).1 cs

/-- Run a transform model over the finite sequence of its input chunks. -/
def runT {α β σ : Type} (t : TransformModel α β σ) (inputs : List α) : List β :=
  runTAux t t.init inputs

/-- `createDataTransform(transformFn)` (streaming strategy) from
`src/lib/utils.ts`: stateless; for each chunk it computes
`transformFn(chunk)` and emits it twice — once via
`this.push(transformedData)` and once more because the transform callback is
also invoked with `transformedData` as its data argument. -/
def createDataTransform {α β : Type} (transformFn : α → β) :
    TransformModel α β Unit where
  init := ()
  step := fun _ c => ((), [transformFn c, transformFn c])
  flush := fun _ => []

/-- The running diff value `[missing, extraneous, matchCount]`. -/
abbrev DiffState := List Recd × List Recd × Nat

instance : DecidableEq DiffState := instDecidableEqProd

/-- `defaultCompareFn` from `src/lib/defaults.ts`: canonicalize both record
lists, diff the canonical keys with `getArrayDiffs`, decode the two
leftover-key lists back to records, and add the new matches to the running
match count. -/
def defaultCompareFn (t : DiffState) : DiffState :=
  let d := getArrayDiffs (t.1.map stringifyObject, t.2.1.map stringifyObject)
  (d.1.map unstringifyObject, d.2.1.map unstringifyObject, t.2.2 + d.2.2)

/-- `createPausedDataTransform(compareFn)` (accumulating strategy) from
`src/lib/utils.ts`: keeps one accumulator, initially `[[], [], 0]`; for each
chunk pair the chunk's two sides are appended to the accumulator's two lists
and the accumulator is replaced by `compareFn(accumulator)`, emitting
nothing; at end-of-input the final accumulator is pushed exactly once. -/
def createPausedDataTransform (compareFn : DiffState → DiffState) :
    TransformModel (List Recd × List Recd) DiffState DiffState where
  init := ([], [], 0)
  step := fun acc ch => (compareFn (acc.1 ++ ch.1, acc.2.1 ++ ch.2, acc.2.2), [])
  flush := fun acc => [acc]

/-- C2 (amended): the streaming transform emits exactly two copies of the
transformed result per chunk pair — `this.push` and the data argument of the
transform callback each emit one — in strict arrival order, each computed by
applying the transform function to that chunk pair alone (the transform
keeps no state, so no running matchCount is threaded), and earlier chunks
are never revisited. -/
theorem createDataTransform_spec {α β : Type} (f : α → β) (chunks : List α) :
    runT (createDataTransform f) chunks = chunks.flatMap (fun c => [f c, f c]) ∧
    (runT (createDataTransform f) chunks).length = 2 * chunks.length := by
  have hmain : ∀ (cs : List α), runTAux (createDataTransform f) () cs =
      cs.flatMap (fun c => [f c, f c]) := by
    intro cs
    induction cs with
    | nil => rfl
    | cons c rest ih =>
      have hstep : runTAux (createDataTransform f) () (c :: rest) =
          [f c, f c] ++ runTAux (createDataTransform f) () rest := rfl
      rw [hstep, ih, List.flatMap_cons]
  constructor
  · exact hmain chunks
  · rw [runT, hmain chunks]
    induction chunks with
    | nil => rfl
    | cons c rest ih =>
      rw [List.flatMap_cons, List.length_append, ih]
      simp
      omega

/-- A single-entry record used for concrete evaluations. -/
def recX : Recd := [([Char.ofNat 109], [Char.ofNat 49])]

/-- C2 counterexample: on a single chunk pair the streaming transform emits
two DiffStates, not exactly one as the claim states. -/
theorem createDataTransform_single_emission_cex :
    ¬ ((runT (createDataTransform defaultCompareFn)
        [([recX], [recX], (0 : Nat))]).length = 1) := by
  decide

/-- One accumulating step at the level of canonical keys: append the chunk's
key lists to the running missing/extraneous key lists, re-diff, and add the
new matches to the running count. -/
def pausedStepK {α : Type} [DecidableEq α] (st : List α × List α × Nat)
    (ch : List α × List α) : List α × List α × Nat :=
  let d := getArrayDiffs (st.1 ++ ch.1, st.2.1 ++ ch.2)
  (d.1, d.2.1, st.2.2 + d.2.2)

theorem length_filter_or_disjoint {α : Type} (l : List α) (p q : α → Bool)
    (h : ∀ x ∈ l, ¬(p x = true ∧ q x = true)) :
    (l.filter (fun x => p x || q x)).length = (l.filter p).length + (l.filter q).length := by
  induction l with
  | nil => rfl
  | cons x rest ih =>
    have hx := h x (List.mem_cons_self _ _)
    have hrest : ∀ y ∈ rest, ¬(p y = true ∧ q y = true) :=
      fun y hy => h y (List.mem_cons_of_mem _ hy)
    by_cases hp : p x = true
    · have hq : q x = false := by
        cases hqv : q x with
        | false => rfl
        | true => exact absurd ⟨hp, hqv⟩ hx
      simp [List.filter_cons, hp, hq, ih hrest]
      omega
    · have hp' : p x = false := by simpa using hp
      by_cases hq : q x = true
      · simp [List.filter_cons, hp', hq, ih hrest]
        omega
      · have hq' : q x = false := by simpa using hq
        simp [List.filter_cons, hp', hq', ih hrest]

theorem pausedStepK_eq {α : Type} [DecidableEq α] (M E : List α) (c : Nat) (a' b' : List α) :
    pausedStepK (M, E, c) (a', b') =
      ((getArrayDiffs (M ++ a', E ++ b')).1,
       (getArrayDiffs (M ++ a', E ++ b')).2.1,
       c + (getArrayDiffs (M ++ a', E ++ b')).2.2) := rfl

theorem pausedStepK_step {α : Type} [DecidableEq α] (A B a' b' : List α)
    (h1 : (A ++ a').Nodup) (h2 : (B ++ b').Nodup) :
    pausedStepK
      (A.filter (fun x => decide (x ∉ B)), B.filter (fun x => decide (x ∉ A)),
        (A.filter (fun x => decide (x ∈ B))).length) (a', b') =
      ((A ++ a').filter (fun x => decide (x ∉ B ++ b')),
       (B ++ b').filter (fun x => decide (x ∉ A ++ a')),
       ((A ++ a').filter (fun x => decide (x ∈ B ++ b'))).length) := by
  obtain ⟨hAnd, ha'nd, hdAa⟩ := List.nodup_append.mp h1
  obtain ⟨hBnd, hb'nd, hdBb⟩ := List.nodup_append.mp h2
  have hMa'nd : (A.filter (fun x => decide (x ∉ B)) ++ a').Nodup := by
    rw [List.nodup_append]
    exact ⟨hAnd.filter _, ha'nd, fun x hx hx' => hdAa (List.mem_of_mem_filter hx) hx'⟩
  have hEb'nd : (B.filter (fun x => decide (x ∉ A)) ++ b').Nodup := by
    rw [List.nodup_append]
    exact ⟨hBnd.filter _, hb'nd, fun x hx hx' => hdBb (List.mem_of_mem_filter hx) hx'⟩
  rw [pausedStepK_eq, getArrayDiffs_eq, toSetList_eq_self _ hMa'nd, toSetList_eq_self _ hEb'nd]
  have hMq : (A.filter (fun x => decide (x ∉ B))).filter
      (fun x => decide (x ∉ B.filter (fun y => decide (y ∉ A)) ++ b')) =
      A.filter (fun x => decide (x ∉ B ++ b')) := by
    rw [List.filter_filter]
    apply List.filter_congr
    intro x hxA
    by_cases hxB : x ∈ B
    · simp [hxB, List.mem_append]
    · have hxE : x ∉ B.filter (fun y => decide (y ∉ A)) :=
        fun hc => hxB (List.mem_of_mem_filter hc)
      by_cases hxb : x ∈ b' <;> simp [hxB, hxE, hxb, List.mem_append]
  have ha'q : a'.filter (fun x => decide (x ∉ B.filter (fun y => decide (y ∉ A)) ++ b')) =
      a'.filter (fun x => decide (x ∉ B ++ b')) := by
    apply List.filter_congr
    intro x hxa
    have hxA : x ∉ A := fun hc => hdAa hc hxa
    have hEB : x ∈ B.filter (fun y => decide (y ∉ A)) ↔ x ∈ B := by
      simp [List.mem_filter, hxA]
    by_cases hxB : x ∈ B <;> by_cases hxb : x ∈ b' <;>
      simp [List.mem_append, hEB, hxB, hxb, hxA]
  have hEq : (B.filter (fun x => decide (x ∉ A))).filter
      (fun x => decide (x ∉ A.filter (fun y => decide (y ∉ B)) ++ a')) =
      B.filter (fun x => decide (x ∉ A ++ a')) := by
    rw [List.filter_filter]
    apply List.filter_congr
    intro x hxB
    by_cases hxA : x ∈ A
    · simp [hxA, List.mem_append]
    · have hxM : x ∉ A.filter (fun y => decide (y ∉ B)) :=
        fun hc => hxA (List.mem_of_mem_filter hc)
      by_cases hxa : x ∈ a' <;> simp [hxA, hxM, hxa, List.mem_append]
  have hb'q : b'.filter (fun x => decide (x ∉ A.filter (fun y => decide (y ∉ B)) ++ a')) =
      b'.filter (fun x => decide (x ∉ A ++ a')) := by
    apply List.filter_congr
    intro x hxb
    have hxB : x ∉ B := fun hc => hdBb hc hxb
    have hMA : x ∈ A.filter (fun y => decide (y ∉ B)) ↔ x ∈ A := by
      simp [List.mem_filter, hxB]
    by_cases hxA : x ∈ A <;> by_cases hxa : x ∈ a' <;>
      simp [List.mem_append, hMA, hxA, hxa, hxB]
  have hM3 : (A.filter (fun x => decide (x ∉ B))).filter
      (fun x => decide (x ∈ B.filter (fun y => decide (y ∉ A)) ++ b')) =
      A.filter (fun x => decide (x ∈ b')) := by
    rw [List.filter_filter]
    apply List.filter_congr
    intro x hxA
    by_cases hxB : x ∈ B
    · have hxb : x ∉ b' := fun hc => hdBb hxB hc
      simp [hxB, hxb, List.mem_append]
    · have hxE : x ∉ B.filter (fun y => decide (y ∉ A)) :=
        fun hc => hxB (List.mem_of_mem_filter hc)
      by_cases hxb : x ∈ b' <;> simp [hxB, hxE, hxb, List.mem_append]
  have ha'3 : a'.filter (fun x => decide (x ∈ B.filter (fun y => decide (y ∉ A)) ++ b')) =
      a'.filter (fun x => decide (x ∈ B ++ b')) := by
    apply List.filter_congr
    intro x hxa
    have hxA : x ∉ A := fun hc => hdAa hc hxa
    have hEB : x ∈ B.filter (fun y => decide (y ∉ A)) ↔ x ∈ B := by
      simp [List.mem_filter, hxA]
    by_cases hxB : x ∈ B <;> by_cases hxb : x ∈ b' <;>
      simp [List.mem_append, hEB, hxB, hxb, hxA]
  have hAsplit : (A.filter (fun x => decide (x ∈ B ++ b'))).length =
      (A.filter (fun x => decide (x ∈ B))).length +
      (A.filter (fun x => decide (x ∈ b'))).length := by
    have hor : A.filter (fun x => decide (x ∈ B ++ b')) =
        A.filter (fun x => decide (x ∈ B) || decide (x ∈ b')) := by
      apply List.filter_congr
      intro x _
      by_cases hxB : x ∈ B <;> by_cases hxb : x ∈ b' <;>
        simp [List.mem_append, hxB, hxb]
    rw [hor]
    exact length_filter_or_disjoint A _ _
      (fun x _ h => hdBb (by simpa using h.1) (by simpa using h.2))
  dsimp only
  simp only [Prod.mk.injEq]
  refine ⟨?_, ?_, ?_⟩
  · rw [List.filter_append, List.filter_append, hMq, ha'q]
  · rw [List.filter_append, List.filter_append, hEq, hb'q]
  · rw [List.filter_append, List.length_append, hM3, ha'3,
      List.filter_append, List.length_append, hAsplit]
    omega

theorem pausedK_fold {α : Type} [DecidableEq α] :
    ∀ (chks : List (List α × List α)) (A B : List α),
      (A ++ (chks.map Prod.fst).flatten).Nodup →
      (B ++ (chks.map Prod.snd).flatten).Nodup →
      chks.foldl pausedStepK
        (A.filter (fun x => decide (x ∉ B)), B.filter (fun x => decide (x ∉ A)),
          (A.filter (fun x => decide (x ∈ B))).length) =
        ((A ++ (chks.map Prod.fst).flatten).filter
            (fun x => decide (x ∉ B ++ (chks.map Prod.snd).flatten)),
         (B ++ (chks.map Prod.snd).flatten).filter
            (fun x => decide (x ∉ A ++ (chks.map Prod.fst).flatten)),
         ((A ++ (chks.map Prod.fst).flatten).filter
            (fun x => decide (x ∈ B ++ (chks.map Prod.snd).flatten))).length) := by
  intro chks
  induction chks with
  | nil => intro A B _ _; simp
  | cons ch rest ih =>
    intro A B h1 h2
    obtain ⟨a', b'⟩ := ch
    have h1' : ((A ++ a') ++ (rest.map Prod.fst).flatten).Nodup := by
      simpa [List.append_assoc] using h1
    have h2' : ((B ++ b') ++ (rest.map Prod.snd).flatten).Nodup := by
      simpa [List.append_assoc] using h2
    have hAa : (A ++ a').Nodup := (List.nodup_append.mp h1').1
    have hBb : (B ++ b').Nodup := (List.nodup_append.mp h2').1
    rw [List.foldl_cons]
    rw [show pausedStepK
        (A.filter (fun x => decide (x ∉ B)), B.filter (fun x => decide (x ∉ A)),
          (A.filter (fun x => decide (x ∈ B))).length) (a', b') =
        ((A ++ a').filter (fun x => decide (x ∉ B ++ b')),
         (B ++ b').filter (fun x => decide (x ∉ A ++ a')),
         ((A ++ a').filter (fun x => decide (x ∈ B ++ b'))).length)
      from pausedStepK_step A B a' b' hAa hBb]
    rw [ih (A ++ a') (B ++ b') h1' h2']
    simp only [List.map_cons, List.flatten_cons, List.append_assoc]

/-- A canonical key: the encoding of some well-formed record. -/
def GoodKey (k : Str) : Prop := ∃ r, Wf r ∧ stringifyObject r = k

theorem goodKey_roundtrip (k : Str) (h : GoodKey k) :
    stringifyObject (unstringifyObject k) = k := by
  rcases h with ⟨r, hr, rfl⟩
  exact stringify_unstringify_stringify r hr

theorem map_stringify_unstringify (ks : List Str) (h : ∀ k ∈ ks, GoodKey k) :
    (ks.map unstringifyObject).map stringifyObject = ks := by
  rw [List.map_map]
  have : ks.map (stringifyObject ∘ unstringifyObject) = ks.map id := by
    apply List.map_congr_left
    intro k hk
    simp only [Function.comp_apply, id_eq]
    exact goodKey_roundtrip k (h k hk)
  rw [this, List.map_id]

theorem paused_fold_bridge :
    ∀ (chunks : List (List Recd × List Recd)) (MK EK : List Str) (c : Nat),
      (∀ k ∈ MK, GoodKey k) → (∀ k ∈ EK, GoodKey k) →
      (∀ ch ∈ chunks, (∀ r ∈ ch.1, Wf r) ∧ (∀ r ∈ ch.2, Wf r)) →
      chunks.foldl
          (fun acc ch => defaultCompareFn (acc.1 ++ ch.1, acc.2.1 ++ ch.2, acc.2.2))
          (MK.map unstringifyObject, EK.map unstringifyObject, c) =
        (((chunks.map (fun ch => (ch.1.map stringifyObject, ch.2.map stringifyObject))).foldl
            pausedStepK (MK, EK, c)).1.map unstringifyObject,
         ((chunks.map (fun ch => (ch.1.map stringifyObject, ch.2.map stringifyObject))).foldl
            pausedStepK (MK, EK, c)).2.1.map unstringifyObject,
         ((chunks.map (fun ch => (ch.1.map stringifyObject, ch.2.map stringifyObject))).foldl
            pausedStepK (MK, EK, c)).2.2) := by
  intro chunks
  induction chunks with
  | nil => intro MK EK c _ _ _; rfl
  | cons ch rest ih =>
    intro MK EK c hMK hEK hwf
    obtain ⟨a', b'⟩ := ch
    have hwfa : ∀ r ∈ a', Wf r := (hwf (a', b') (List.mem_cons_self _ _)).1
    have hwfb : ∀ r ∈ b', Wf r := (hwf (a', b') (List.mem_cons_self _ _)).2
    have hwfrest : ∀ ch ∈ rest, (∀ r ∈ ch.1, Wf r) ∧ (∀ r ∈ ch.2, Wf r) :=
      fun ch hch => hwf ch (List.mem_cons_of_mem _ hch)
    have hstep : defaultCompareFn
        ((MK.map unstringifyObject) ++ a', (EK.map unstringifyObject) ++ b', c) =
        ((getArrayDiffs (MK ++ a'.map stringifyObject, EK ++ b'.map stringifyObject)).1.map
            unstringifyObject,
         (getArrayDiffs (MK ++ a'.map stringifyObject, EK ++ b'.map stringifyObject)).2.1.map
            unstringifyObject,
         c + (getArrayDiffs (MK ++ a'.map stringifyObject, EK ++ b'.map stringifyObject)).2.2) := by
      unfold defaultCompareFn
      rw [List.map_append, List.map_append,
        map_stringify_unstringify MK hMK, map_stringify_unstringify EK hEK]
    have hMK' : ∀ k ∈ (getArrayDiffs (MK ++ a'.map stringifyObject,
        EK ++ b'.map stringifyObject)).1, GoodKey k := by
      intro k hk
      have := (mem_getArrayDiffs_missing _ _ k).mp hk
      rcases List.mem_append.mp this.1 with hh | hh
      · exact hMK k hh
      · rcases List.mem_map.mp hh with ⟨r, hr, rfl⟩
        exact ⟨r, hwfa r hr, rfl⟩
    have hEK' : ∀ k ∈ (getArrayDiffs (MK ++ a'.map stringifyObject,
        EK ++ b'.map stringifyObject)).2.1, GoodKey k := by
      intro k hk
      have := (mem_getArrayDiffs_extraneous _ _ k).mp hk
      rcases List.mem_append.mp this.1 with hh | hh
      · exact hEK k hh
      · rcases List.mem_map.mp hh with ⟨r, hr, rfl⟩
        exact ⟨r, hwfb r hr, rfl⟩
    rw [List.foldl_cons]
    show rest.foldl _ (defaultCompareFn ((MK.map unstringifyObject) ++ a',
        (EK.map unstringifyObject) ++ b', c)) = _
    rw [hstep]
    rw [ih (getArrayDiffs (MK ++ a'.map stringifyObject, EK ++ b'.map stringifyObject)).1
        (getArrayDiffs (MK ++ a'.map stringifyObject, EK ++ b'.map stringifyObject)).2.1
        (c + (getArrayDiffs (MK ++ a'.map stringifyObject, EK ++ b'.map stringifyObject)).2.2)
        hMK' hEK' hwfrest]
    rw [List.map_cons, List.foldl_cons]
    rfl

theorem filter_decide_irrel {α : Type} (l : List α) (P : α → Prop)
    (i1 i2 : ∀ x, Decidable (P x)) :
    (l.filter (fun x => @decide (P x) (i1 x))) =
      l.filter (fun x => @decide (P x) (i2 x)) := by
  apply List.filter_congr
  intro x _
  exact decide_eq_decide.mpr Iff.rfl

theorem runT_paused (compareFn : DiffState → DiffState)
    (chunks : List (List Recd × List Recd)) :
    runT (createPausedDataTransform compareFn) chunks =
      [chunks.foldl
        (fun acc ch => compareFn (acc.1 ++ ch.1, acc.2.1 ++ ch.2, acc.2.2))
        ([], [], 0)] := by
  have haux : ∀ (cs : List (List Recd × List Recd)) (s : DiffState),
      runTAux (createPausedDataTransform compareFn) s cs =
        [cs.foldl (fun acc ch => compareFn (acc.1 ++ ch.1, acc.2.1 ++ ch.2, acc.2.2)) s] := by
    intro cs
    induction cs with
    | nil => intro s; rfl
    | cons c rest ih =>
      intro s
      have hstep : runTAux (createPausedDataTransform compareFn) s (c :: rest) =
          runTAux (createPausedDataTransform compareFn)
            (compareFn (s.1 ++ c.1, s.2.1 ++ c.2, s.2.2)) rest := rfl
      rw [hstep, ih]
      rfl
  exact haux chunks _

/-- C1 (amended): for every finite sequence of chunk pairs of well-formed
records in which no canonical key repeats across (or within) chunks on the
same side, the accumulating ("paused") transform emits exactly one
DiffState, after end-of-input, equal to the diff computed over the
concatenation of all source chunks versus the concatenation of all target
chunks seen — regardless of how records were split across chunk boundaries,
including records whose counterpart arrives in a later chunk pair.  (A
record duplicated across chunks on one side is outside this hypothesis: once
matched it is deleted from the accumulator, so a later duplicate is
re-reported; see the counterexample.) -/
theorem createPausedDataTransform_spec (chunks : List (List Recd × List Recd))
    (hwf : ∀ ch ∈ chunks, (∀ r ∈ ch.1, Wf r) ∧ (∀ r ∈ ch.2, Wf r))
    (hA : (((chunks.map Prod.fst).flatten).map stringifyObject).Nodup)
    (hB : (((chunks.map Prod.snd).flatten).map stringifyObject).Nodup) :
    runT (createPausedDataTransform defaultCompareFn) chunks =
      [defaultCompareFn
        ((chunks.map Prod.fst).flatten, (chunks.map Prod.snd).flatten, 0)] := by
  have hbridge := paused_fold_bridge chunks [] [] 0
    (by intro k hk; cases hk) (by intro k hk; cases hk) hwf
  simp only [List.map_nil] at hbridge
  have hjoinA : ((chunks.map (fun ch => (ch.1.map stringifyObject,
      ch.2.map stringifyObject))).map Prod.fst).flatten =
      ((chunks.map Prod.fst).flatten).map stringifyObject := by
    rw [List.map_map, List.map_flatten, List.map_map]
    apply congrArg List.flatten
    apply List.map_congr_left
    intro ch _
    rfl
  have hjoinB : ((chunks.map (fun ch => (ch.1.map stringifyObject,
      ch.2.map stringifyObject))).map Prod.snd).flatten =
      ((chunks.map Prod.snd).flatten).map stringifyObject := by
    rw [List.map_map, List.map_flatten, List.map_map]
    apply congrArg List.flatten
    apply List.map_congr_left
    intro ch _
    rfl
  have hkey := pausedK_fold
    (chunks.map (fun ch => (ch.1.map stringifyObject, ch.2.map stringifyObject)))
    [] []
    (by rw [List.nil_append, hjoinA]; exact hA)
    (by rw [List.nil_append, hjoinB]; exact hB)
  simp only [List.filter_nil, List.length_nil, List.nil_append, hjoinA, hjoinB] at hkey
  rw [runT_paused, hbridge, hkey]
  unfold defaultCompareFn
  rw [getArrayDiffs_eq, toSetList_eq_self _ hA, toSetList_eq_self _ hB]
  dsimp only
  rw [Nat.zero_add]
  congr 1
  refine Prod.ext ?_ (Prod.ext ?_ ?_)
  · exact congrArg (List.map unstringifyObject) (filter_decide_irrel _ _ _ _)
  · exact congrArg (List.map unstringifyObject) (filter_decide_irrel _ _ _ _)
  · exact congrArg List.length (filter_decide_irrel _ _ _ _)

theorem createPausedDataTransform_spec_witness :
    ((∀ ch ∈ ([([recX], []), ([], [recX])] : List (List Recd × List Recd)),
        (∀ r ∈ ch.1, Wf r) ∧ (∀ r ∈ ch.2, Wf r)) ∧
      ((([([recX], []), ([], [recX])] : List (List Recd × List Recd)).map
          Prod.fst).flatten.map stringifyObject).Nodup ∧
      ((([([recX], []), ([], [recX])] : List (List Recd × List Recd)).map
          Prod.snd).flatten.map stringifyObject).Nodup) ∧
    runT (createPausedDataTransform defaultCompareFn)
        [([recX], []), ([], [recX])] =
      [defaultCompareFn
        ((([([recX], []), ([], [recX])] : List (List Recd × List Recd)).map
            Prod.fst).flatten,
         (([([recX], []), ([], [recX])] : List (List Recd × List Recd)).map
            Prod.snd).flatten, 0)] :=
  ⟨⟨by decide, by decide, by decide⟩,
    createPausedDataTransform_spec _ (by decide) (by decide) (by decide)⟩

/-- C1 counterexample: when a record is duplicated across source chunks, the
paused transform's final DiffState differs from the diff over the union of
all chunks.  Here `recX` is matched in the first chunk pair, deleted from
the accumulator, and its duplicate in the second source chunk is re-reported
as missing, whereas the diff over the unions reports nothing missing. -/
theorem createPausedDataTransform_union_cex :
    ¬ (runT (createPausedDataTransform defaultCompareFn)
        [([recX], [recX]), ([recX], [])] =
      [defaultCompareFn ([recX, recX], [recX], 0)]) := by
  decide

instance decEqNoneInst {α : Type} (x : Option α) : Decidable (x = none) :=
  match x with
  | none => isTrue rfl
  | some _ => isFalse (fun h => Option.noConfusion h)

/-- `readIteratorFactory(readerFn)` from `src/lib/utils.ts`, pulled at most
`fuel` times: repeatedly invoke the (stateful) reader; yield every non-null
result; return at the first `null`.  A reader is a function from its
internal state (its bookmark) to the new state and either a chunk or the
end-marker `none` (JavaScript `null`). -/
def runRead {σ γ : Type} (step : σ → σ × Option γ) : Nat → σ → List γ
  | 0, _ => []
  | n + 1, s =>
    match step s with
    | (s', some item) => item :: runRead step n s'
    | (_, none) => []

/-- The reader state after `runRead` returns (the state left by the last
invocation performed, including the one that returned the end-marker). -/
def runReadState {σ γ : Type} (step : σ → σ × Option γ) : Nat → σ → σ
  | 0, s => s
  | n + 1, s =>
    match step s with
    | (s', some _) => runReadState step n s'
    | (s', none) => s'

/-- How many times `runRead` invokes the reader within `fuel` pulls. -/
def invocationCount {σ γ : Type} (step : σ → σ × Option γ) : Nat → σ → Nat
  | 0, _ => 0
  | n + 1, s =>
    match step s with
    | (s', some _) => invocationCount step n s' + 1
    | (_, none) => 1

/-- Iterated state transformer. -/
def iterN {σ : Type} (next : σ → σ) (s : σ) : Nat → σ
  | 0 => s
  | n + 1 => iterN next (next s) n

/-- The state sequence induced by a reader's step function. -/
def iterState {σ γ : Type} (step : σ → σ × Option γ) (s : σ) : Nat → σ :=
  iterN (fun s => (step s).1) s

/-- The reader's result at pull number `i` (counting from 0). -/
def resultAt {σ γ : Type} (step : σ → σ × Option γ) (s : σ) (i : Nat) : Option γ :=
  (step (iterState step s i)).2

theorem iterState_succ {σ γ : Type} (step : σ → σ × Option γ) (s : σ) (i : Nat) :
    iterState step s (i + 1) = iterState step (step s).1 i := rfl

theorem resultAt_succ {σ γ : Type} (step : σ → σ × Option γ) (s : σ) (i : Nat) :
    resultAt step s (i + 1) = resultAt step (step s).1 i := rfl

theorem takeWhile_congr_on {X : Type} (p q : X → Bool) :
    ∀ (l : List X), (∀ x ∈ l, p x = q x) → l.takeWhile p = l.takeWhile q := by
  intro l
  induction l with
  | nil => intro _; rfl
  | cons x xs ih =>
    intro h
    have hx := h x (List.mem_cons_self _ _)
    by_cases hp : p x = true
    · rw [List.takeWhile_cons_of_pos hp, List.takeWhile_cons_of_pos (hx ▸ hp),
        ih (fun y hy => h y (List.mem_cons_of_mem _ hy))]
    · have hp' : p x = false := by simpa using hp
      rw [List.takeWhile_cons_of_neg (by simp [hp']),
        List.takeWhile_cons_of_neg (by simp [← hx, hp'])]

theorem takeWhile_map_eq {X Y : Type} (f : X → Y) (q : Y → Bool) :
    ∀ (l : List X), (l.map f).takeWhile q = (l.takeWhile (fun x => q (f x))).map f := by
  intro l
  induction l with
  | nil => rfl
  | cons x xs ih =>
    by_cases hq : q (f x) = true
    · rw [List.map_cons, List.takeWhile_cons_of_pos hq]
      have hx : (x :: xs).takeWhile (fun y => q (f y)) =
          x :: xs.takeWhile (fun y => q (f y)) :=
        List.takeWhile_cons_of_pos (by simpa using hq)
      rw [hx, List.map_cons, ih]
    · have hq' : q (f x) = false := by simpa using hq
      rw [List.map_cons, List.takeWhile_cons_of_neg (by simp [hq'])]
      have hx : (x :: xs).takeWhile (fun y => q (f y)) = [] :=
        List.takeWhile_cons_of_neg (by simp [hq'])
      rw [hx]
      rfl

theorem filterMap_eq_map_of_some {X Y : Type} (f : X → Option Y) (g : X → Y) :
    ∀ (l : List X), (∀ x ∈ l, f x = some (g x)) → l.filterMap f = l.map g := by
  intro l
  induction l with
  | nil => intro _; rfl
  | cons x xs ih =>
    intro h
    rw [List.filterMap_cons, h x (List.mem_cons_self _ _), List.map_cons,
      ih (fun y hy => h y (List.mem_cons_of_mem _ hy))]

theorem runRead_eq_takeWhile {σ γ : Type} (step : σ → σ × Option γ) :
    ∀ (fuel : Nat) (s : σ),
      runRead step fuel s =
        (((List.range fuel).map (fun i => resultAt step s i)).takeWhile
          (fun r => r.isSome)).reduceOption := by
  intro fuel
  induction fuel with
  | zero => intro s; rfl
  | succ n ih =>
    intro s
    rcases hstep : step s with ⟨s', res⟩
    have h0 : resultAt step s 0 = res := by
      simp [resultAt, iterState, iterN, hstep]
    have hshift : (List.range n).map (fun i => resultAt step s (i + 1)) =
        (List.range n).map (fun i => resultAt step s' i) := by
      apply List.map_congr_left
      intro i _
      rw [resultAt_succ, hstep]
    have hrange : (List.range (n + 1)).map (fun i => resultAt step s i) =
        resultAt step s 0 :: (List.range n).map (fun i => resultAt step s (i + 1)) := by
      rw [List.range_succ_eq_map, List.map_cons, List.map_map]
      rfl
    cases res with
    | none =>
      have hrun : runRead step (n + 1) s = [] := by
        simp [runRead, hstep]
      rw [hrun, hrange, h0, hshift]
      simp [List.takeWhile]
    | some item =>
      have hrun : runRead step (n + 1) s = item :: runRead step n s' := by
        simp [runRead, hstep]
      rw [hrun, hrange, h0, hshift, ih s']
      simp [List.takeWhile, List.reduceOption]

theorem iterState_eq_iterN {σ γ : Type} (step : σ → σ × Option γ) (next : σ → σ)
    (hnext : ∀ s, (step s).1 = next s) :
    ∀ (i : Nat) (s : σ), iterState step s i = iterN next s i := by
  intro i
  induction i with
  | zero => intro s; rfl
  | succ n ih =>
    intro s
    rw [iterState_succ, hnext, ih]
    rfl

/-- Characterization of a dual-source read stream: for any joint step that
yields the pair of per-step side results and ends exactly when both sides
return the end-marker, the emitted sequence is the per-step result pairs of
the initial segment of steps strictly before the first step at which both
sides return the end-marker. -/
theorem runRead_pair_spec {σ α β : Type}
    (step : σ → σ × Option (Option α × Option β))
    (next : σ → σ) (resA : σ → Option α) (resB : σ → Option β)
    (hstep : ∀ s, step s =
      (next s, if resA s = none ∧ resB s = none then none else some (resA s, resB s)))
    (fuel : Nat) (s0 : σ) :
    runRead step fuel s0 =
      ((List.range fuel).takeWhile
          (fun i => decide ¬(resA (iterN next s0 i) = none ∧
            resB (iterN next s0 i) = none))).map
        (fun i => (resA (iterN next s0 i), resB (iterN next s0 i))) := by
  rw [runRead_eq_takeWhile]
  have hiter : ∀ i, iterState step s0 i = iterN next s0 i :=
    fun i => iterState_eq_iterN step next (fun s => by rw [hstep]) i s0
  have hres : ∀ i, resultAt step s0 i =
      if resA (iterN next s0 i) = none ∧ resB (iterN next s0 i) = none then none
      else some (resA (iterN next s0 i), resB (iterN next s0 i)) := by
    intro i
    rw [resultAt, hstep, hiter]
  have hmap : (List.range fuel).map (fun i => resultAt step s0 i) =
      (List.range fuel).map (fun i =>
        if resA (iterN next s0 i) = none ∧ resB (iterN next s0 i) = none then none
        else some (resA (iterN next s0 i), resB (iterN next s0 i))) :=
    List.map_congr_left (fun i _ => hres i)
  rw [hmap, takeWhile_map_eq]
  have hpred : (List.range fuel).takeWhile (fun i =>
      (if resA (iterN next s0 i) = none ∧ resB (iterN next s0 i) = none then none
       else some (resA (iterN next s0 i), resB (iterN next s0 i)) :
        Option (Option α × Option β)).isSome) =
      (List.range fuel).takeWhile (fun i => decide ¬(resA (iterN next s0 i) = none ∧
        resB (iterN next s0 i) = none)) := by
    apply takeWhile_congr_on
    intro i _
    by_cases h : resA (iterN next s0 i) = none ∧ resB (iterN next s0 i) = none <;>
      simp [h]
  rw [hpred]
  rw [List.reduceOption, List.filterMap_map]
  apply filterMap_eq_map_of_some
  intro i hi
  have hkeep := List.mem_takeWhile_imp hi
  simp only [decide_eq_true_eq] at hkeep
  simp [if_neg hkeep]

/-- The joint reader built by `createParallelReadStream(aReaderFn, bReaderFn)`
from `src/lib/utils.ts`: each step invokes both side readers (via
`Promise.all`) and returns the end-marker only when both side results are
`null` in the same step; otherwise it yields the pair of results, one of
which may be `null`. -/
def parallelStep {σa σb α β : Type} (ra : σa → σa × Option α)
    (rb : σb → σb × Option β) (s : σa × σb) :
    (σa × σb) × Option (Option α × Option β) :=
  (((ra s.1).1, (rb s.2).1),
    if (ra s.1).2 = none ∧ (rb s.2).2 = none then none
    else some ((ra s.1).2, (rb s.2).2))

/-- The pair of side-reader states after `i` joint steps of the independent
dual-source read; both sides advance on every step. -/
def parallelStateAt {σa σb α β : Type} (ra : σa → σa × Option α)
    (rb : σb → σb × Option β) (s0 : σa × σb) (i : Nat) : σa × σb :=
  iterN (fun s => ((ra s.1).1, (rb s.2).1)) s0 i

/-- The first side reader's result at joint step `i` of the independent
dual-source read. -/
def parallelResA {σa σb α β : Type} (ra : σa → σa × Option α)
    (rb : σb → σb × Option β) (s0 : σa × σb) (i : Nat) : Option α :=
  (ra (parallelStateAt ra rb s0 i).1).2

/-- The second side reader's result at joint step `i` of the independent
dual-source read. -/
def parallelResB {σa σb α β : Type} (ra : σa → σa × Option α)
    (rb : σb → σb × Option β) (s0 : σa × σb) (i : Nat) : Option β :=
  (rb (parallelStateAt ra rb s0 i).2).2

/-- C6: with independent readers, the dual-source stream emits exactly the
per-step result pairs of the steps strictly before the first step at which
both readers return the end-marker simultaneously: a step where only one
side is the end-marker still yields a chunk pair, and both side states keep
advancing (both sides are polled) on every step up to and including the
jointly-ending one. -/
theorem createParallelReadStream_spec {σa σb α β : Type}
    (ra : σa → σa × Option α) (rb : σb → σb × Option β)
    (fuel : Nat) (s0 : σa × σb) :
    runRead (parallelStep ra rb) fuel s0 =
      ((List.range fuel).takeWhile
          (fun i => decide ¬(parallelResA ra rb s0 i = none ∧
            parallelResB ra rb s0 i = none))).map
        (fun i => (parallelResA ra rb s0 i, parallelResB ra rb s0 i)) :=
  runRead_pair_spec (parallelStep ra rb)
    (fun s => ((ra s.1).1, (rb s.2).1))
    (fun s => (ra s.1).2) (fun s => (rb s.2).2)
    (fun s => rfl) fuel s0

/-- Wrap a reader so its state also records how many times it has been
invoked. -/
def countingReader {σ α : Type} (r : σ → σ × Option α) :
    σ × Nat → (σ × Nat) × Option α :=
  fun s => (((r s.1).1, s.2 + 1), (r s.1).2)

/-- C7 (amended): in independent mode each joint pull of the dual-source
stream invokes both side readers exactly once, including the final pull at
which both return the end-marker — so a reader that returned the end-marker
on an earlier step keeps being invoked on every later step until the other
side also ends; only after the joint stream has ended is neither reader
invoked again.  Formally: after a run, each side's invocation counter equals
the number of joint pulls performed. -/
theorem createParallelReadStream_invocations {σa σb α β : Type}
    (ra : σa → σa × Option α) (rb : σb → σb × Option β) :
    ∀ (fuel : Nat) (sa : σa) (ca : Nat) (sb : σb) (cb : Nat),
      ((runReadState (parallelStep (countingReader ra) (countingReader rb)) fuel
          ((sa, ca), (sb, cb))).1.2 =
        ca + invocationCount (parallelStep (countingReader ra) (countingReader rb)) fuel
          ((sa, ca), (sb, cb))) ∧
      ((runReadState (parallelStep (countingReader ra) (countingReader rb)) fuel
          ((sa, ca), (sb, cb))).2.2 =
        cb + invocationCount (parallelStep (countingReader ra) (countingReader rb)) fuel
          ((sa, ca), (sb, cb))) := by
  intro fuel
  induction fuel with
  | zero => intro sa ca sb cb; exact ⟨rfl, rfl⟩
  | succ n ih =>
    intro sa ca sb cb
    rcases hstep : parallelStep (countingReader ra) (countingReader rb)
        ((sa, ca), (sb, cb)) with ⟨s', res⟩
    have hs' : s' = (((ra sa).1, ca + 1), ((rb sb).1, cb + 1)) := by
      have := congrArg Prod.fst hstep
      simpa [parallelStep, countingReader] using this.symm
    cases res with
    | none =>
      have h1 : runReadState (parallelStep (countingReader ra) (countingReader rb))
          (n + 1) ((sa, ca), (sb, cb)) = s' := by
        simp [runReadState, hstep]
      have h2 : invocationCount (parallelStep (countingReader ra) (countingReader rb))
          (n + 1) ((sa, ca), (sb, cb)) = 1 := by
        simp [invocationCount, hstep]
      rw [h1, h2, hs']
      exact ⟨rfl, rfl⟩
    | some v =>
      have h1 : runReadState (parallelStep (countingReader ra) (countingReader rb))
          (n + 1) ((sa, ca), (sb, cb)) =
          runReadState (parallelStep (countingReader ra) (countingReader rb)) n s' := by
        simp [runReadState, hstep]
      have h2 : invocationCount (parallelStep (countingReader ra) (countingReader rb))
          (n + 1) ((sa, ca), (sb, cb)) =
          invocationCount (parallelStep (countingReader ra) (countingReader rb)) n s' + 1 := by
        simp [invocationCount, hstep]
      rw [h1, h2, hs']
      rcases ih (ra sa).1 (ca + 1) (rb sb).1 (cb + 1) with ⟨ihA, ihB⟩
      rw [ihA, ihB]
      constructor <;> omega

/-- First counterexample reader: returns the end-marker immediately and on
every invocation. -/
def cexReaderA : Unit → Unit × Option Nat := fun _ => ((), none)

/-- Second counterexample reader: returns data on its first two invocations,
then the end-marker. -/
def cexReaderB : Nat → Nat × Option Nat :=
  fun n => (n + 1, if n < 2 then some n else none)

/-- C7 counterexample: reader A returns the end-marker on the very first
step, yet after the joint run it has been invoked 3 times (once per joint
step, until reader B also ended) — the core does invoke a reader again after
it returned the end-marker. -/
theorem createParallelReadStream_reinvocation_cex :
    parallelResA (countingReader cexReaderA) (countingReader cexReaderB)
        ((((), 0), (0, 0))) 0 = none ∧
    (runReadState (parallelStep (countingReader cexReaderA) (countingReader cexReaderB)) 10
        (((), 0), (0, 0))).1.2 = 3 ∧
    ¬ ((runReadState (parallelStep (countingReader cexReaderA) (countingReader cexReaderB)) 10
        (((), 0), (0, 0))).1.2 ≤ 1) := by
  refine ⟨rfl, rfl, by decide⟩

/-- The joint reader built by `createSequentialReadStream(aReaderFn, bReaderFn)`
from `src/lib/utils.ts`: each step first invokes the first reader, then
invokes the second reader with the first reader's (possibly `null`) result as
its argument, and returns the end-marker only when both results of the step
are `null`. -/
def sequentialStep {σa σb α β : Type} (ra : σa → σa × Option α)
    (rb : σb → Option α → σb × Option β) (s : σa × σb) :
    (σa × σb) × Option (Option α × Option β) :=
  (((ra s.1).1, (rb s.2 (ra s.1).2).1),
    if (ra s.1).2 = none ∧ (rb s.2 (ra s.1).2).2 = none then none
    else some ((ra s.1).2, (rb s.2 (ra s.1).2).2))

/-- The pair of side-reader states after `i` joint steps of the dependent
dual-source read. -/
def seqStateAt {σa σb α β : Type} (ra : σa → σa × Option α)
    (rb : σb → Option α → σb × Option β) (s0 : σa × σb) (i : Nat) : σa × σb :=
  iterN (fun s => ((ra s.1).1, (rb s.2 (ra s.1).2).1)) s0 i

/-- The first reader's result at joint step `i` of the dependent read. -/
def seqResA {σa σb α β : Type} (ra : σa → σa × Option α)
    (rb : σb → Option α → σb × Option β) (s0 : σa × σb) (i : Nat) : Option α :=
  (ra (seqStateAt ra rb s0 i).1).2

/-- The second reader's result at joint step `i` of the dependent read: it is
computed from the first reader's result of the same step. -/
def seqResB {σa σb α β : Type} (ra : σa → σa × Option α)
    (rb : σb → Option α → σb × Option β) (s0 : σa × σb) (i : Nat) : Option β :=
  (rb (seqStateAt ra rb s0 i).2 (seqResA ra rb s0 i)).2

/-- Wrap a dependent reader so its state also logs, in order, every argument
value it has been invoked with. -/
def loggingReader {σb α β : Type} (rb : σb → Option α → σb × Option β) :
    σb × List (Option α) → Option α → (σb × List (Option α)) × Option β :=
  fun s x => (((rb s.1 x).1, s.2 ++ [x]), (rb s.1 x).2)

/-- C10: in dependent (sequential) mode the pair sequence consists of the
per-step result pairs of the steps strictly before the first step at which
both results are the end-marker (so it ends only at such a step, and a step
where only the first reader has ended still yields a pair, the second
reader's result being computed from the end-marker input); and the second
reader is invoked exactly once per joint step, receiving exactly the first
reader's result of that same step — including `none` after the first reader
has ended — as shown by its argument log. -/
theorem createSequentialReadStream_spec {σa σb α β : Type}
    (ra : σa → σa × Option α) (rb : σb → Option α → σb × Option β)
    (fuel : Nat) (s0 : σa × σb) :
    (runRead (sequentialStep ra rb) fuel s0 =
      ((List.range fuel).takeWhile
          (fun i => decide ¬(seqResA ra rb s0 i = none ∧ seqResB ra rb s0 i = none))).map
        (fun i => (seqResA ra rb s0 i, seqResB ra rb s0 i))) ∧
    (∀ (sb0 : σb) (sa0 : σa),
      (runReadState (sequentialStep ra (loggingReader rb)) fuel (sa0, (sb0, []))).2.2 =
        (List.range (invocationCount (sequentialStep ra (loggingReader rb)) fuel
            (sa0, (sb0, [])))).map
          (fun i => seqResA ra (loggingReader rb) (sa0, (sb0, [])) i)) := by
  constructor
  · exact runRead_pair_spec (sequentialStep ra rb)
      (fun s => ((ra s.1).1, (rb s.2 (ra s.1).2).1))
      (fun s => (ra s.1).2) (fun s => (rb s.2 (ra s.1).2).2)
      (fun s => rfl) fuel s0
  · have haux : ∀ (n : Nat) (sa : σa) (sb : σb) (log : List (Option α)),
        (runReadState (sequentialStep ra (loggingReader rb)) n (sa, (sb, log))).2.2 =
          log ++ (List.range (invocationCount (sequentialStep ra (loggingReader rb)) n
              (sa, (sb, log)))).map
            (fun i => seqResA ra (loggingReader rb) ((sa, (sb, log)) : σa × (σb × List (Option α))) i) := by
      intro n
      induction n with
      | zero => intro sa sb log; simp [runReadState, invocationCount]
      | succ m ih =>
        intro sa sb log
        rcases hstep : sequentialStep ra (loggingReader rb) (sa, (sb, log)) with ⟨s', res⟩
        have hs' : s' = ((ra sa).1, ((rb sb (ra sa).2).1, log ++ [(ra sa).2])) := by
          have := congrArg Prod.fst hstep
          simpa [sequentialStep, loggingReader] using this.symm
        have hres0 : seqResA ra (loggingReader rb)
            ((sa, (sb, log)) : σa × (σb × List (Option α))) 0 = (ra sa).2 := rfl
        have hshift : ∀ i, seqResA ra (loggingReader rb)
            ((sa, (sb, log)) : σa × (σb × List (Option α))) (i + 1) =
            seqResA ra (loggingReader rb) s' i := by
          intro i
          rw [hs']
          rfl
        cases res with
        | none =>
          have h1 : runReadState (sequentialStep ra (loggingReader rb)) (m + 1)
              (sa, (sb, log)) = s' := by
            simp [runReadState, hstep]
          have h2 : invocationCount (sequentialStep ra (loggingReader rb)) (m + 1)
              (sa, (sb, log)) = 1 := by
            simp [invocationCount, hstep]
          rw [h1, h2, hs']
          simp [List.range_succ, hres0]
        | some v =>
          have h1 : runReadState (sequentialStep ra (loggingReader rb)) (m + 1)
              (sa, (sb, log)) =
              runReadState (sequentialStep ra (loggingReader rb)) m s' := by
            simp [runReadState, hstep]
          have h2 : invocationCount (sequentialStep ra (loggingReader rb)) (m + 1)
              (sa, (sb, log)) =
              invocationCount (sequentialStep ra (loggingReader rb)) m s' + 1 := by
            simp [invocationCount, hstep]
          rw [h1, h2]
          have hrec := ih (ra sa).1 (rb sb (ra sa).2).1 (log ++ [(ra sa).2])
          rw [hs', hrec]
          rw [List.range_succ_eq_map, List.map_cons, hres0, List.map_map]
          have hcomp : (List.range (invocationCount (sequentialStep ra (loggingReader rb)) m
              ((ra sa).1, ((rb sb (ra sa).2).1, log ++ [(ra sa).2])))).map
              ((fun i => seqResA ra (loggingReader rb)
                ((sa, (sb, log)) : σa × (σb × List (Option α))) i) ∘ Nat.succ) =
              (List.range (invocationCount (sequentialStep ra (loggingReader rb)) m
              ((ra sa).1, ((rb sb (ra sa).2).1, log ++ [(ra sa).2])))).map
              (fun i => seqResA ra (loggingReader rb)
                (((ra sa).1, ((rb sb (ra sa).2).1, log ++ [(ra sa).2])) :
                  σa × (σb × List (Option α))) i) := by
            apply List.map_congr_left
            intro i _
            have := hshift i
            rw [hs'] at this
            simpa [Function.comp] using this
          rw [hcomp]
          simp
    intro sb0 sa0
    have := haux fuel sa0 sb0 []
    simpa using this

/-- The status of one `executeTasks` worker: still running with the results
accumulated so far, or settled — fulfilled with its result list, or rejected
with the error of the task that failed. -/
inductive WorkerState (α : Type) where
  | running (acc : List α)
  | fulfilled (acc : List α)
  | rejected (e : String)

/-- The joint state of a `parallelLimit` run: the shared pending-task queue
(each task modelled by its eventual settled outcome) and the workers.  The
queue is only ever popped from the front (`taskQueue.shift()`), never
re-populated. -/
structure PLState (α : Type) where
  queue : List (Except String α)
  workers : List (WorkerState α)

def WorkerState.isSettled {α : Type} : WorkerState α → Bool
  | running _ => false
  | fulfilled _ => true
  | rejected _ => true

def WorkerState.isRejected {α : Type} : WorkerState α → Bool
  | rejected _ => true
  | _ => false

def WorkerState.isFulfilled {α : Type} : WorkerState α → Bool
  | fulfilled _ => true
  | _ => false

def WorkerState.errOf {α : Type} : WorkerState α → Option String
  | rejected e => some e
  | _ => none

def WorkerState.accOf {α : Type} : WorkerState α → List α
  | running acc => acc
  | fulfilled acc => acc
  | rejected _ => []

/-- `parallelLimit(limit, tasks)` start state: a copy of the task list as
the shared queue and `tasks.length < limit ? tasks.length : limit` idle
workers (`executeTasks` instances). -/
def plInit {α : Type} (limit : Nat) (tasks : List (Except String α)) : PLState α :=
  { queue := tasks
    workers := List.replicate (min tasks.length limit) (WorkerState.running []) }

/-- One scheduler step: worker `i`, if still running, atomically pops the
next task off the shared queue and runs it to completion — appending its
value on fulfilment, rejecting on failure — or settles as fulfilled when the
pop finds the queue exhausted.  A step addressed to a settled or nonexistent
worker changes nothing.  Quantifying over all schedules covers every
interleaving of the single-threaded event loop. -/
def plStep {α : Type} (st : PLState α) (i : Nat) : PLState α :=
  match st.workers[i]? with
  | some (WorkerState.running acc) =>
    match st.queue with
    | [] => { st with workers := st.workers.set i (WorkerState.fulfilled acc) }
    | t :: rest =>
      match t with
      | Except.ok v =>
        { queue := rest, workers := st.workers.set i (WorkerState.running (acc ++ [v])) }
      | Except.error e =>
        { queue := rest, workers := st.workers.set i (WorkerState.rejected e) }
  | _ => st

/-- A complete `parallelLimit` run under a given schedule of worker turns. -/
def plRun {α : Type} (limit : Nat) (tasks : List (Except String α))
    (sched : List Nat) : PLState α :=
  sched.foldl plStep (plInit limit tasks)

/-- `Promise.allSettled` has resolved: every worker has settled. -/
def Settled {α : Type} (st : PLState α) : Prop :=
  ∀ w ∈ st.workers, w.isSettled = true

/-- The reason of the first rejected worker, in worker order, if any
(`results.forEach` throws at the first non-fulfilled result). -/
def firstError {α : Type} : List (WorkerState α) → Option String
  | [] => none
  | w :: rest =>
    match WorkerState.errOf w with
    | some e => some e
    | none => firstError rest

/-- After `allSettled`, `parallelLimit` throws on the first rejected worker
(in worker order), wrapping its reason; otherwise it returns the workers'
result lists flattened in worker order. -/
def plOutcome {α : Type} (st : PLState α) : Except String (List α) :=
  match firstError st.workers with
  | some e => Except.error ("Task did not fulfill: " ++ e)
  | none => Except.ok ((st.workers.map WorkerState.accOf).flatten)

theorem firstError_eq_none {α : Type} :
    ∀ (l : List (WorkerState α)), firstError l = none →
      ∀ w ∈ l, WorkerState.errOf w = none := by
  intro l
  induction l with
  | nil => intro _ w hw; cases hw
  | cons w0 rest ih =>
    intro h w hw
    have hcases : WorkerState.errOf w0 = none ∧ firstError rest = none := by
      cases he : WorkerState.errOf w0 with
      | some e =>
        exfalso
        have heq : firstError (w0 :: rest) = some e := by
          simp only [firstError, he]
        rw [heq] at h
        cases h
      | none =>
        have heq : firstError (w0 :: rest) = firstError rest := by
          simp only [firstError, he]
        rw [heq] at h
        exact ⟨rfl, h⟩
    rcases List.mem_cons.mp hw with rfl | hw'
    · exact hcases.1
    · exact ih hcases.2 w hw'

/-- The values of the tasks that fulfil. -/
def okValues {α : Type} (tasks : List (Except String α)) : List α :=
  tasks.filterMap (fun t => match t with | Except.ok v => some v | Except.error _ => none)

def isOkTask {α : Type} : Except String α → Bool
  | Except.ok _ => true
  | Except.error _ => false

theorem lt_length_of_getElem? {β : Type} :
    ∀ (l : List β) (i : Nat) (u : β), l[i]? = some u → i < l.length := by
  intro l
  induction l with
  | nil => intro i u h; simp at h
  | cons y ys ih =>
    intro i u h
    cases i with
    | zero => simp
    | succ n =>
      have := ih n u (by simpa using h)
      simpa using Nat.succ_lt_succ this

theorem mem_set_of_ne_current {β : Type} :
    ∀ (l : List β) (i : Nat) (u x w : β),
      l[i]? = some u → w ∈ l → w ≠ u → w ∈ l.set i x := by
  intro l
  induction l with
  | nil => intro i u x w h; simp at h
  | cons y ys ih =>
    intro i u x w hu hw hne
    cases i with
    | zero =>
      have hyu : y = u := by simpa using hu
      subst hyu
      rcases List.mem_cons.mp hw with rfl | hw'
      · exact absurd rfl hne
      · exact List.mem_cons_of_mem _ hw'
    | succ n =>
      rcases List.mem_cons.mp hw with rfl | hw'
      · exact List.mem_cons_self _ _
      · exact List.mem_cons_of_mem _ (ih n u x w (by simpa using hu) hw' hne)

theorem mem_set_self_of_lt {β : Type} :
    ∀ (l : List β) (i : Nat) (x : β), i < l.length → x ∈ l.set i x := by
  intro l
  induction l with
  | nil => intro i x h; simp at h
  | cons y ys ih =>
    intro i x h
    cases i with
    | zero => exact List.mem_cons_self _ _
    | succ n => exact List.mem_cons_of_mem _ (ih n x (by simpa using h))

theorem sum_map_set {β M : Type} [AddCommMonoid M] (f : β → M) :
    ∀ (l : List β) (i : Nat) (u x : β), l[i]? = some u →
      ((l.set i x).map f).sum + f u = (l.map f).sum + f x := by
  intro l
  induction l with
  | nil => intro i u x h; simp at h
  | cons y ys ih =>
    intro i u x h
    cases i with
    | zero =>
      have hyu : y = u := by simpa using h
      subst hyu
      show (f x + (ys.map f).sum) + f y = (f y + (ys.map f).sum) + f x
      abel
    | succ n =>
      have hrec := ih n u x (by simpa using h)
      show (f y + ((ys.set n x).map f).sum) + f u = (f y + (ys.map f).sum) + f x
      calc (f y + ((ys.set n x).map f).sum) + f u
          = f y + (((ys.set n x).map f).sum + f u) := by abel
        _ = f y + ((ys.map f).sum + f x) := by rw [hrec]
        _ = (f y + (ys.map f).sum) + f x := by abel

/-- The total multiset of fulfilled-task values still pending in the queue
or already accumulated by a worker. -/
def plMultiset {α : Type} (st : PLState α) : Multiset α :=
  (okValues st.queue : Multiset α) +
    (st.workers.map (fun w => (WorkerState.accOf w : Multiset α))).sum

theorem foldl_plStep_preserve {β : Type} (P : PLState β → Prop)
    (hstep : ∀ st i, P st → P (plStep st i)) :
    ∀ (sched : List Nat) (st : PLState β), P st → P (sched.foldl plStep st) := by
  intro sched
  induction sched with
  | nil => intro st h; exact h
  | cons i rest ih => intro st h; exact ih _ (hstep st i h)

theorem plStep_workers_length {β : Type} (st : PLState β) (i : Nat) :
    (plStep st i).workers.length = st.workers.length := by
  unfold plStep
  split
  · split
    · simp
    · split <;> simp
  · rfl

theorem plStep_rejected_persists {β : Type} (st : PLState β) (i : Nat)
    (h : ∃ w ∈ st.workers, w.isRejected = true) :
    ∃ w ∈ (plStep st i).workers, w.isRejected = true := by
  rcases h with ⟨w, hw, hrj⟩
  have hwne : ∀ acc : List β, w ≠ WorkerState.running acc := by
    intro acc heq
    rw [heq] at hrj
    simp [WorkerState.isRejected] at hrj
  unfold plStep
  split
  next acc hget =>
    split
    · exact ⟨w, mem_set_of_ne_current _ i _ _ w hget hw (hwne acc), hrj⟩
    · split
      · exact ⟨w, mem_set_of_ne_current _ i _ _ w hget hw (hwne acc), hrj⟩
      · exact ⟨w, mem_set_of_ne_current _ i _ _ w hget hw (hwne acc), hrj⟩
  next => exact ⟨w, hw, hrj⟩

theorem plStep_mset_of_norej {β : Type} (st : PLState β) (i : Nat)
    (h : ¬ ∃ w ∈ (plStep st i).workers, w.isRejected = true) :
    plMultiset (plStep st i) = plMultiset st := by
  revert h
  unfold plStep
  split
  next acc hget =>
    split
    next hq =>
      intro _
      unfold plMultiset
      have hsum := sum_map_set (fun w => (WorkerState.accOf w : Multiset β))
        st.workers i (WorkerState.running acc) (WorkerState.fulfilled acc) hget
      simp only [WorkerState.accOf] at hsum
      have hSS : ((st.workers.set i (WorkerState.fulfilled acc)).map
          (fun w => (WorkerState.accOf w : Multiset β))).sum =
          (st.workers.map (fun w => (WorkerState.accOf w : Multiset β))).sum :=
        add_right_cancel hsum
      show (okValues st.queue : Multiset β) + _ = (okValues st.queue : Multiset β) + _
      rw [hSS]
    next t rest hq =>
      split
      next v =>
        intro _
        unfold plMultiset
        have hsum := sum_map_set (fun w => (WorkerState.accOf w : Multiset β))
          st.workers i (WorkerState.running acc) (WorkerState.running (acc ++ [v])) hget
        simp only [WorkerState.accOf] at hsum
        have hq' : okValues st.queue = v :: okValues rest := by
          rw [hq]
          rfl
        have hacc : ((acc ++ [v] : List β) : Multiset β) = (acc : Multiset β) + {v} := rfl
        rw [hacc] at hsum
        have hS : ((st.workers.set i (WorkerState.running (acc ++ [v]))).map
            (fun w => (WorkerState.accOf w : Multiset β))).sum =
            (st.workers.map (fun w => (WorkerState.accOf w : Multiset β))).sum + {v} := by
          have h2 : ((st.workers.set i (WorkerState.running (acc ++ [v]))).map
              (fun w => (WorkerState.accOf w : Multiset β))).sum + (acc : Multiset β) =
              ((st.workers.map (fun w => (WorkerState.accOf w : Multiset β))).sum + {v}) +
                (acc : Multiset β) := by
            calc ((st.workers.set i (WorkerState.running (acc ++ [v]))).map
                (fun w => (WorkerState.accOf w : Multiset β))).sum + (acc : Multiset β)
                = (st.workers.map (fun w => (WorkerState.accOf w : Multiset β))).sum +
                    ((acc : Multiset β) + {v}) := hsum
              _ = ((st.workers.map (fun w => (WorkerState.accOf w : Multiset β))).sum + {v}) +
                    (acc : Multiset β) := by abel
          exact add_right_cancel h2
        show (okValues rest : Multiset β) + _ = (okValues st.queue : Multiset β) + _
        rw [hS, hq']
        have hcons : ((v :: okValues rest : List β) : Multiset β) =
            {v} + (okValues rest : Multiset β) := rfl
        rw [hcons]
        abel
      next e =>
        intro habs
        exfalso
        apply habs
        refine ⟨WorkerState.rejected e, ?_, rfl⟩
        exact mem_set_self_of_lt _ i _ (lt_length_of_getElem? _ i _ hget)
  next =>
    intro _
    rfl

theorem plRun_rejected_persists {β : Type} :
    ∀ (sched : List Nat) (st : PLState β),
      (∃ w ∈ st.workers, w.isRejected = true) →
      ∃ w ∈ (sched.foldl plStep st).workers, w.isRejected = true :=
  fun sched st h =>
    foldl_plStep_preserve (fun s => ∃ w ∈ s.workers, w.isRejected = true)
      plStep_rejected_persists sched st h

theorem plRun_mset_of_norej {β : Type} :
    ∀ (sched : List Nat) (st : PLState β),
      (¬ ∃ w ∈ (sched.foldl plStep st).workers, w.isRejected = true) →
      plMultiset (sched.foldl plStep st) = plMultiset st := by
  intro sched
  induction sched with
  | nil => intro st _; rfl
  | cons i rest ih =>
    intro st hno
    rw [List.foldl_cons] at hno ⊢
    have hstepno : ¬ ∃ w ∈ (plStep st i).workers, w.isRejected = true := by
      intro hex
      exact hno (plRun_rejected_persists rest _ hex)
    rw [ih _ hno, plStep_mset_of_norej st i hstepno]

theorem plStep_J {β : Type} (st : PLState β) (i : Nat)
    (hJ : st.queue ≠ [] → ∀ w ∈ st.workers, w.isFulfilled = false) :
    (plStep st i).queue ≠ [] → ∀ w ∈ (plStep st i).workers, w.isFulfilled = false := by
  unfold plStep
  split
  next acc hget =>
    split
    next hq =>
      intro hne
      exfalso
      exact hne hq
    next t rest hq =>
      split
      next v =>
        intro _ w hw
        rcases List.mem_or_eq_of_mem_set hw with hw' | rfl
        · exact hJ (by rw [hq]; simp) w hw'
        · rfl
      next e =>
        intro _ w hw
        rcases List.mem_or_eq_of_mem_set hw with hw' | rfl
        · exact hJ (by rw [hq]; simp) w hw'
        · rfl
  next => exact hJ

theorem plRun_J {β : Type} :
    ∀ (sched : List Nat) (st : PLState β),
      (st.queue ≠ [] → ∀ w ∈ st.workers, w.isFulfilled = false) →
      ((sched.foldl plStep st).queue ≠ [] →
        ∀ w ∈ (sched.foldl plStep st).workers, w.isFulfilled = false) :=
  fun sched st h =>
    foldl_plStep_preserve
      (fun s => s.queue ≠ [] → ∀ w ∈ s.workers, w.isFulfilled = false)
      plStep_J sched st h

theorem drop_cons_split {β : Type} :
    ∀ (l : List β) (j : Nat) (t : β) (rest : List β),
      l.drop j = t :: rest →
      l.take (j + 1) = l.take j ++ [t] ∧ l.drop (j + 1) = rest := by
  intro l
  induction l with
  | nil => intro j t rest h; rw [List.drop_nil] at h; cases h
  | cons x xs ih =>
    intro j t rest h
    cases j with
    | zero =>
      have hx : x = t ∧ xs = rest := by
        have := h
        simp at this
        exact this
      exact ⟨by simp [hx.1], by simpa using hx.2⟩
    | succ n =>
      have h' : xs.drop n = t :: rest := by simpa using h
      rcases ih n t rest h' with ⟨h1, h2⟩
      constructor
      · show x :: xs.take (n + 1) = (x :: xs.take n) ++ [t]
        rw [h1]
        rfl
      · simpa using h2

/-- The queue is always a suffix of the original task list, and, as long as
no worker has rejected, every task popped so far fulfilled. -/
def PoppedOkInv {β : Type} (tasks : List (Except String β)) (st : PLState β) : Prop :=
  ∃ j, st.queue = tasks.drop j ∧
    ((∃ w ∈ st.workers, w.isRejected = true) ∨
      (∀ t ∈ tasks.take j, isOkTask t = true))

theorem plStep_popped {β : Type} (tasks : List (Except String β)) (st : PLState β) (i : Nat)
    (h : PoppedOkInv tasks st) : PoppedOkInv tasks (plStep st i) := by
  rcases h with ⟨j, hq, hdisj⟩
  unfold plStep
  split
  next acc hget =>
    have hper : (∃ w ∈ st.workers, w.isRejected = true) →
        ∀ x, ∃ w ∈ st.workers.set i x, w.isRejected = true := by
      rintro ⟨w, hw, hrj⟩ x
      refine ⟨w, mem_set_of_ne_current _ i _ _ w hget hw ?_, hrj⟩
      intro heq
      rw [heq] at hrj
      simp [WorkerState.isRejected] at hrj
    split
    next hqe =>
      refine ⟨j, hq, ?_⟩
      rcases hdisj with hrej | hok
      · exact Or.inl (hper hrej _)
      · exact Or.inr hok
    next t rest hqe =>
      have hdrop : tasks.drop j = t :: rest := by rw [← hq, hqe]
      rcases drop_cons_split tasks j t rest hdrop with ⟨htake, hdrop'⟩
      split
      next v =>
        refine ⟨j + 1, by simpa using hdrop'.symm, ?_⟩
        rcases hdisj with hrej | hok
        · exact Or.inl (hper hrej _)
        · refine Or.inr ?_
          intro t' ht'
          rw [htake] at ht'
          rcases List.mem_append.mp ht' with hh | hh
          · exact hok t' hh
          · have ht'v : t' = Except.ok v := by simpa using hh
            rw [ht'v]
            rfl
      next e =>
        refine ⟨j + 1, by simpa using hdrop'.symm, ?_⟩
        refine Or.inl ⟨WorkerState.rejected e, ?_, rfl⟩
        exact mem_set_self_of_lt _ i _ (lt_length_of_getElem? _ i _ hget)
  next => exact ⟨j, hq, hdisj⟩

theorem plRun_popped {β : Type} (tasks : List (Except String β)) :
    ∀ (sched : List Nat) (st : PLState β),
      PoppedOkInv tasks st → PoppedOkInv tasks (sched.foldl plStep st) :=
  fun sched st h =>
    foldl_plStep_preserve (PoppedOkInv tasks) (plStep_popped tasks) sched st h

theorem plRun_workers_length {β : Type} :
    ∀ (sched : List Nat) (st : PLState β),
      (sched.foldl plStep st).workers.length = st.workers.length := by
  intro sched
  induction sched with
  | nil => intro st; rfl
  | cons i rest ih =>
    intro st
    rw [List.foldl_cons, ih, plStep_workers_length]

def listToMset {β : Type} (l : List β) : Multiset β := (l : Multiset β)

theorem coe_flatten_eq_sum {β : Type} :
    ∀ (ls : List (List β)), ((ls.flatten : List β) : Multiset β) =
      (ls.map listToMset).sum := by
  intro ls
  induction ls with
  | nil => rfl
  | cons l rest ih =>
    show ((l ++ rest.flatten : List β) : Multiset β) = _
    have hsplit : ((l ++ rest.flatten : List β) : Multiset β) =
        (l : Multiset β) + (rest.flatten : Multiset β) := rfl
    rw [hsplit, ih]
    rfl

theorem okValues_length_of_all_ok {β : Type} :
    ∀ (tasks : List (Except String β)), (∀ t ∈ tasks, isOkTask t = true) →
      (okValues tasks).length = tasks.length := by
  intro tasks
  induction tasks with
  | nil => intro _; rfl
  | cons t rest ih =>
    intro h
    cases t with
    | ok v =>
      show (okValues (Except.ok v :: rest)).length = rest.length + 1
      have : okValues (Except.ok v :: rest) = v :: okValues rest := rfl
      rw [this, List.length_cons, ih (fun t' ht' => h t' (List.mem_cons_of_mem _ ht'))]
    | error e =>
      have := h (Except.error e) (List.mem_cons_self _ _)
      simp [isOkTask] at this

theorem outcome_ok_no_rejected {β : Type} (st : PLState β) (res : List β)
    (h : plOutcome st = Except.ok res) :
    (∀ w ∈ st.workers, w.isRejected = false) ∧
      res = (st.workers.map WorkerState.accOf).flatten := by
  unfold plOutcome at h
  rcases hfind : firstError st.workers with _ | e
  · rw [hfind] at h
    refine ⟨?_, by injection h with h'; exact h'.symm⟩
    intro w hw
    have := firstError_eq_none st.workers hfind w hw
    cases w <;> simp [WorkerState.errOf, WorkerState.isRejected] at this ⊢
  · rw [hfind] at h
    cases h

/-- C5 (amended): for every schedule under which the run settles — the
schedules cover every interleaving of the worker coroutines — (a) with
`limit ≥ |tasks|`, whenever `parallelLimit` resolves, it resolves with
exactly one result per task: the results are a permutation of the values of
the tasks, one each; and (b) for any positive limit, if any task rejects,
the whole call throws a single wrapped error — there is no partial result
list.  (With `limit = 0` no worker is created, so a rejecting task is never
run and the call resolves with `[]`; see the counterexample.) -/
theorem parallelLimit_spec {α : Type} (tasks : List (Except String α)) (limit : Nat)
    (sched : List Nat) (hs : Settled (plRun limit tasks sched)) :
    (tasks.length ≤ limit → ∀ res, plOutcome (plRun limit tasks sched) = Except.ok res →
      res.Perm (okValues tasks) ∧ res.length = tasks.length) ∧
    (1 ≤ limit → (∃ e, Except.error e ∈ tasks) →
      ∃ msg, plOutcome (plRun limit tasks sched) = Except.error msg) := by
  have hlenw : (plRun limit tasks sched).workers.length = min tasks.length limit := by
    unfold plRun
    rw [plRun_workers_length]
    simp [plInit]
  have hJ : (plRun limit tasks sched).queue ≠ [] →
      ∀ w ∈ (plRun limit tasks sched).workers, w.isFulfilled = false := by
    apply plRun_J
    intro _ w hw
    have : w = WorkerState.running [] := List.eq_of_mem_replicate hw
    rw [this]
    rfl
  have hpop : PoppedOkInv tasks (plRun limit tasks sched) := by
    apply plRun_popped
    exact ⟨0, by simp [plInit], Or.inr (by simp)⟩
  constructor
  · intro hlim res hout
    rcases outcome_ok_no_rejected _ res hout with ⟨hnorej, hres⟩
    have hnoexist : ¬ ∃ w ∈ (plRun limit tasks sched).workers, w.isRejected = true := by
      rintro ⟨w, hw, hrj⟩
      rw [hnorej w hw] at hrj
      cases hrj
    rcases hpop with ⟨j, hq, hdisj⟩
    have hallful : ∀ w ∈ (plRun limit tasks sched).workers, w.isFulfilled = true := by
      intro w hw
      have h1 := hs w hw
      have h2 := hnorej w hw
      cases w <;> simp [WorkerState.isSettled, WorkerState.isRejected,
        WorkerState.isFulfilled] at h1 h2 ⊢
    have hqnil : (plRun limit tasks sched).queue = [] := by
      by_cases htasks : tasks.length = 0
      · rw [hq, List.eq_nil_of_length_eq_zero htasks]
        simp
      · by_contra hne
        have hw1 : 0 < (plRun limit tasks sched).workers.length := by
          rw [hlenw]
          have : min tasks.length limit = tasks.length := Nat.min_eq_left hlim
          omega
        rcases List.exists_mem_of_length_pos hw1 with ⟨w, hw⟩
        have := hJ hne w hw
        rw [hallful w hw] at this
        cases this
    have halltasks : ∀ t ∈ tasks, isOkTask t = true := by
      rcases hdisj with hrej | hok
      · exact absurd hrej hnoexist
      · have hdropnil : tasks.drop j = [] := by rw [← hq, hqnil]
        have htake : tasks.take j = tasks :=
          List.take_of_length_le (List.drop_eq_nil_iff.mp hdropnil)
        intro t ht
        exact hok t (by rw [htake]; exact ht)
    have hmset : plMultiset (plRun limit tasks sched) =
        plMultiset (plInit limit tasks) := plRun_mset_of_norej sched _ hnoexist
    have hinitm : plMultiset (plInit limit tasks) = (okValues tasks : Multiset α) := by
      unfold plMultiset plInit
      have : ((List.replicate (min tasks.length limit) (WorkerState.running ([] : List α))).map
          (fun w => (WorkerState.accOf w : Multiset α))).sum = 0 := by
        rw [List.map_replicate]
        show (List.replicate (min tasks.length limit) ((0 : Multiset α))).sum = 0
        simp
      rw [this]
      simp
    have hfinm : plMultiset (plRun limit tasks sched) =
        ((plRun limit tasks sched).workers.map
          (fun w => (WorkerState.accOf w : Multiset α))).sum := by
      unfold plMultiset
      rw [hqnil]
      show (okValues ([] : List (Except String α)) : Multiset α) + _ = _
      have : (okValues ([] : List (Except String α)) : Multiset α) = 0 := rfl
      rw [this, zero_add]
    have hrescoe : (res : Multiset α) = (okValues tasks : Multiset α) := by
      have h1 : (res : Multiset α) =
          ((plRun limit tasks sched).workers.map
            (fun w => (WorkerState.accOf w : Multiset α))).sum := by
        rw [hres]
        rw [coe_flatten_eq_sum ((plRun limit tasks sched).workers.map WorkerState.accOf)]
        rw [List.map_map]
        rfl
      rw [h1, ← hfinm, hmset, hinitm]
    have hperm : res.Perm (okValues tasks) := by
      rw [← Multiset.coe_eq_coe]
      exact hrescoe
    exact ⟨hperm, by rw [hperm.length_eq, okValues_length_of_all_ok tasks halltasks]⟩
  · intro hlim ⟨e, he⟩
    rcases hfind : firstError (plRun limit tasks sched).workers with _ | e'
    · exfalso
      have hnorej : ∀ w ∈ (plRun limit tasks sched).workers, w.isRejected = false := by
        intro w hw
        have := firstError_eq_none _ hfind w hw
        cases w <;> simp [WorkerState.errOf, WorkerState.isRejected] at this ⊢
      rcases hpop with ⟨j, hq, hdisj⟩
      have hok : ∀ t ∈ tasks.take j, isOkTask t = true := by
        rcases hdisj with hrej | hok
        · rcases hrej with ⟨w, hw, hrj⟩
          rw [hnorej w hw] at hrj
          cases hrj
        · exact hok
      have hequeue : Except.error e ∈ (plRun limit tasks sched).queue := by
        rw [hq]
        have : tasks = tasks.take j ++ tasks.drop j := (List.take_append_drop j tasks).symm
        rw [this] at he
        rcases List.mem_append.mp he with hh | hh
        · have := hok _ hh
          simp [isOkTask] at this
        · exact hh
      have hne : (plRun limit tasks sched).queue ≠ [] :=
        List.ne_nil_of_mem hequeue
      have hw1 : 0 < (plRun limit tasks sched).workers.length := by
        rw [hlenw]
        have hlen1 : 1 ≤ tasks.length := by
          rcases tasks with _ | ⟨t, rest⟩
          · cases he
          · simp
        omega
      rcases List.exists_mem_of_length_pos hw1 with ⟨w, hw⟩
      have h1 := hs w hw
      have h2 := hnorej w hw
      have h3 := hJ hne w hw
      cases w <;> simp [WorkerState.isSettled, WorkerState.isRejected,
        WorkerState.isFulfilled] at h1 h2 h3
    · refine ⟨"Task did not fulfill: " ++ e', ?_⟩
      unfold plOutcome
      rw [hfind]

instance settledDecidable {α : Type} (st : PLState α) : Decidable (Settled st) := by
  unfold Settled
  infer_instance

theorem parallelLimit_spec_witness :
    Settled (plRun 2 [(Except.ok 1 : Except String Nat), Except.ok 2] [0, 1, 0, 1]) ∧
    ((([(Except.ok 1 : Except String Nat), Except.ok 2] : List (Except String Nat)).length ≤ 2 →
      ∀ res, plOutcome (plRun 2 [(Except.ok 1 : Except String Nat), Except.ok 2] [0, 1, 0, 1]) =
          Except.ok res →
        res.Perm (okValues [(Except.ok 1 : Except String Nat), Except.ok 2]) ∧
        res.length = ([(Except.ok 1 : Except String Nat), Except.ok 2] :
          List (Except String Nat)).length) ∧
     (1 ≤ 2 → (∃ e, Except.error e ∈ [(Except.ok 1 : Except String Nat), Except.ok 2]) →
      ∃ msg, plOutcome (plRun 2 [(Except.ok 1 : Except String Nat), Except.ok 2] [0, 1, 0, 1]) =
        Except.error msg)) :=
  ⟨by decide, parallelLimit_spec [Except.ok 1, Except.ok 2] 2 [0, 1, 0, 1] (by decide)⟩

/-- C5 counterexample: with `limit = 0`, `parallelLimit` creates no workers,
so a rejecting task is never executed: the call settles immediately and
resolves with `[]` instead of throwing — the claim's "for any limit" fails
for non-positive limits. -/
theorem parallelLimit_zero_limit_cex :
    Settled (plRun 0 [(Except.error "boom" : Except String Nat)] []) ∧
    plOutcome (plRun 0 [(Except.error "boom" : Except String Nat)] []) = Except.ok [] := by
  constructor
  · decide
  · rfl

/-- Observable console/hook events of one executor task run. -/
inductive LogEv (ε : Type) where
  | consoleError (e : ε)
  | consoleLog (e : ε)
  | hookCalled (e : ε)

/-- What one executor task run produces: its event log and either `none`
(the returned promise resolves) or `some e` (it rejects with `e`). -/
structure ExecResult (ε : Type) where
  events : List (LogEv ε)
  outcome : Option ε

/-- Control flow of the function returned by `executor(taskDefinition)`
(`src/lib/executor.ts`), over abstract phase outcomes.  `setup`, `pipe` and
`teardown` are `none` on success or `some e` when the phase fails; `pipe`
abstracts the whole `pipeline(reader, transform, format, sink)` promise,
which rejects with the first failing stage's error.  `hook` is the optional
`errorFn`: given the pipeline error it either returns normally (`none`) or
re-raises (`some e2`).  Per the try/catch/finally structure: a pipeline
rejection is handled by `.catch(e => errorFn ? errorFn(e) : console.error(e))`;
an error thrown by the hook — like a setup failure — reaches the outer
`catch`, which `console.log`s it; the `finally` block awaits `teardownFn`,
whose failure is the only way the returned promise can reject. -/
def executorModel {ε : Type} (setup : Option ε) (pipe : Option ε)
    (hook : Option (ε → Option ε)) (teardown : Option ε) : ExecResult ε :=
  let bodyEvents :=
    match setup with
    | some e0 => [LogEv.consoleLog e0]
    | none =>
      match pipe with
      | none => []
      | some e =>
        match hook with
        | none => [LogEv.consoleError e]
        | some f =>
          match f e with
          | none => [LogEv.hookCalled e]
          | some e2 => [LogEv.hookCalled e, LogEv.consoleLog e2]
  { events := bodyEvents, outcome := teardown }

/-- C8 (amended): a failure in any pipeline stage is routed to the errorFn
hook when supplied and logged via `console.error` otherwise, and the task's
returned promise resolves without propagating the failure upward even when
the hook re-raises: the re-raised error is caught by the executor's outer
`catch` and `console.log`ged rather than propagated (the promise rejects
only when teardown itself fails). -/
theorem executor_spec {ε : Type} (e : ε) (f : ε → Option ε) (g : ε → ε)
    (td : Option ε) :
    (executorModel none (some e) (some f) td).events.head? =
      some (LogEv.hookCalled e) ∧
    (executorModel none (some e) (some f) td).outcome = td ∧
    (executorModel none (some e) none td).events = [LogEv.consoleError e] ∧
    (executorModel none (some e) none td).outcome = td ∧
    (executorModel none (some e) (some (fun x => some (g x))) td).events =
      [LogEv.hookCalled e, LogEv.consoleLog (g e)] ∧
    (executorModel none (some e) (some (fun x => some (g x))) td).outcome = td := by
  refine ⟨?_, rfl, rfl, rfl, rfl, rfl⟩
  cases hf : f e <;> simp [executorModel, hf]

/-- C8 counterexample: a hook that re-raises the pipeline error does not
make the failure propagate upward — the executor's outer catch logs the
re-raised error and the task's promise still resolves, contradicting the
claim's "unless the hook itself re-raises, in which case the failure
propagates upward". -/
theorem executor_rethrow_cex :
    (executorModel none (some "boom") (some (fun e => some e)) none).outcome = none ∧
    (executorModel none (some "boom") (some (fun e => some e)) none).events =
      [LogEv.hookCalled "boom", LogEv.consoleLog "boom"] := ⟨rfl, rfl⟩

/-- Result of the `mkdirSync` call in `makeLoggingDir`, as seen by its
caller. -/
inductive MkdirResult where
  | ok
  | eexist
  | fail (e : String)

/-- `makeLoggingDir` from `src/lib/utils.ts`: create the hidden working
directory `.isomorpher`; a failure whose code is `EEXIST` is success; any
other failure is re-raised as an error telling the user to ensure correct
filesystem permissions for the temporary directory. -/
def makeLoggingDir (res : MkdirResult) (tmpdir : String) : Except String Unit :=
  match res with
  | MkdirResult.ok => Except.ok ()
  | MkdirResult.eexist => Except.ok ()
  | MkdirResult.fail _ => Except.error
      ("Could not create temporary directory for saving work; please ensure that you have correct permissions for "
        ++ tmpdir)

/-- Events on the paused transform's crash path. -/
inductive PipeEv where
  | work (i : Nat)
  | mkdirAttempt
  | persisted
  | persistFailed

/-- The paused transform's crash-persistence path: `saveProgress(accumulator)`
runs from the transform stream's `error` handler — `makeLoggingDir` has no
other call site — so the hidden directory is created only after the
transform has already processed its chunks.  The trace records one work
event per chunk processed before the error, then the directory-creation
attempt, then whether the partial file was written (it is not when directory
creation fails). -/
def pausedCrashTrace (chunksProcessed : Nat) (res : MkdirResult)
    (tmpdir : String) : List PipeEv :=
  (List.range chunksProcessed).map PipeEv.work ++ [PipeEv.mkdirAttempt] ++
    (match makeLoggingDir res tmpdir with
     | Except.ok _ => [PipeEv.persisted]
     | Except.error _ => [PipeEv.persistFailed])

/-- C9 (amended): creating the hidden working directory treats the
`EEXIST` error as success; any other creation failure raises an error whose
diagnostic names the required filesystem permissions and aborts the
persistence attempt (no partial file is written); but directory creation is
attempted only at crash-persistence time, from the paused transform's error
handler, after the pipeline work that preceded the crash — not before
pipeline work starts. -/
theorem makeLoggingDir_spec (tmpdir : String) :
    makeLoggingDir MkdirResult.eexist tmpdir = Except.ok () ∧
    makeLoggingDir MkdirResult.ok tmpdir = Except.ok () ∧
    (∀ e, makeLoggingDir (MkdirResult.fail e) tmpdir = Except.error
      ("Could not create temporary directory for saving work; please ensure that you have correct permissions for "
        ++ tmpdir)) ∧
    (∀ k e, pausedCrashTrace k (MkdirResult.fail e) tmpdir =
      (List.range k).map PipeEv.work ++ [PipeEv.mkdirAttempt, PipeEv.persistFailed]) ∧
    (∀ k e i, i < k → (pausedCrashTrace k (MkdirResult.fail e) tmpdir)[i]? =
      some (PipeEv.work i)) ∧
    (∀ k e, (pausedCrashTrace k (MkdirResult.fail e) tmpdir)[k]? =
      some PipeEv.mkdirAttempt) := by
  refine ⟨rfl, rfl, fun e => rfl, ?_, ?_, ?_⟩
  · intro k e
    simp [pausedCrashTrace, makeLoggingDir, List.append_assoc]
  · intro k e i hik
    unfold pausedCrashTrace
    rw [List.append_assoc, List.getElem?_append]
    simp [hik]
  · intro k e
    unfold pausedCrashTrace
    rw [List.append_assoc, List.getElem?_append]
    simp

/-- C9 counterexample: a failing directory creation happens after pipeline
work, not before pipeline work starts: with one chunk processed before the
crash, the trace begins with a work event and the creation attempt comes
later, refuting "aborts before any pipeline work starts". -/
theorem makeLoggingDir_before_work_cex :
    pausedCrashTrace 1 (MkdirResult.fail "EACCES") "/tmp" =
      [PipeEv.work 0, PipeEv.mkdirAttempt, PipeEv.persistFailed] ∧
    ¬ (∀ (i j : Nat), (pausedCrashTrace 1 (MkdirResult.fail "EACCES") "/tmp")[i]? =
          some PipeEv.mkdirAttempt →
        (pausedCrashTrace 1 (MkdirResult.fail "EACCES") "/tmp")[j]? =
          some (PipeEv.work 0) → i < j) := by
  constructor
  · rfl
  · intro hall
    have h10 := hall 1 0 rfl rfl
    omega

end Isomorphory
